import Mathlib

/-!
# go-spinlock: a verification development

Shallow embedding of `spin_lock.go` (the lock word, `TryLock`, `Unlock`, `Lock`,
`SpinWait`, `LockWithMaxAttempts`) and of the `testSpinLock` workers of `main.go`.

* The lock word `s.lock` (an `int32`) is an `Int`; the code only ever writes the
  constants `0` and `1` to it, so no arithmetic on it can wrap.
* The calls `runtime.Gosched()` and `time.Sleep` are recorded in a trace, together
  with every atomic operation on the lock word.
* Other goroutines act on the lock word between two attempts of a polling caller.
  Their net effect between the caller's attempts number `n + 1` and `n + 2` is the
  function `env n : Int → Int`, applied while the caller is inside `runtime.Gosched()`.
* A loop that may run forever is a function with fuel: one unit per evaluation of
  the loop condition, `none` when the fuel is used up before the loop has exited.
-/

namespace SpinLockGo

/-! ## Data model -/

/-- The Go type `SpinLock struct { lock int32 }`. -/
structure SpinLock where
  lock : Int
deriving DecidableEq, Repr

/-- The constant `spinLockSleepOneFrequency = 50`. -/
def spinLockSleepOneFrequency : Nat := 50

/-- The constant `spinLockMaxAttempts = 200`. -/
def spinLockMaxAttempts : Nat := 200

/-- The function `NewSpinLock`: `&SpinLock{}`, the zero value. -/
def NewSpinLock : SpinLock := { lock := 0 }

/-- The library call `atomic.CompareAndSwapInt32(addr, old, new)` on a word holding `cur`:
whether the swap happened, and the word afterwards. -/
def CompareAndSwapInt32 (cur old new : Int) : Bool × Int :=
  if cur = old then (true, new) else (false, cur)

/-- The library call `atomic.StoreInt32(addr, val)`: the word afterwards. -/
def StoreInt32 (_cur val : Int) : Int := val

/-- The method `TryLock`: `return atomic.CompareAndSwapInt32(&s.lock, 0, 1)`. -/
def SpinLock.TryLock (s : SpinLock) : Bool × SpinLock :=
  let r := CompareAndSwapInt32 s.lock 0 1
  (r.1, { lock := r.2 })

/-- The method `Unlock`: `atomic.StoreInt32(&s.lock, 0)`. -/
def SpinLock.Unlock (s : SpinLock) : SpinLock :=
  { lock := StoreInt32 s.lock 0 }

/-- The lock word holds `0`. -/
def SpinLock.Free (s : SpinLock) : Prop := s.lock = 0

/-- The lock word holds `1`. -/
def SpinLock.Held (s : SpinLock) : Prop := s.lock = 1

instance (s : SpinLock) : Decidable s.Free := inferInstanceAs (Decidable (s.lock = 0))

instance (s : SpinLock) : Decidable s.Held := inferInstanceAs (Decidable (s.lock = 1))

/-! ## Observable effects -/

/-- What a call does that another goroutine or the scheduler can observe. -/
inductive Event where
  /-- One `atomic.CompareAndSwapInt32(&s.lock, 0, 1)` and its result. -/
  | cas (ok : Bool)
  /-- One `atomic.StoreInt32(&s.lock, 0)`. -/
  | store
  /-- One `runtime.Gosched()`. -/
  | gosched
  /-- One `time.Sleep(ms * time.Millisecond)`. -/
  | sleep (ms : Nat)
deriving DecidableEq, Repr

/-- The net effect of the other goroutines on the lock word while the caller is inside its
`n`-th `runtime.Gosched()` (counted from 0). -/
abbrev Env := Nat → Int → Int

/-- No other goroutine touches the lock. -/
def Env.quiet : Env := fun _ v => v

/-- The lock `*s` together with the record of what has happened to it. -/
structure World where
  /-- The lock. -/
  s : SpinLock
  /-- How many times the caller has called `runtime.Gosched()`. -/
  yields : Nat
  /-- The events so far, oldest first. -/
  trace : List Event
deriving DecidableEq, Repr

/-- A world holding the lock `s` in which nothing has happened yet. -/
def World.init (s : SpinLock) : World := { s := s, yields := 0, trace := [] }

/-- The call `s.TryLock()` in a world. -/
def World.TryLock (w : World) : Bool × World :=
  let r := w.s.TryLock
  (r.1, { w with s := r.2, trace := w.trace ++ [Event.cas r.1] })

/-- The call `s.Unlock()` in a world. -/
def World.Unlock (w : World) : World :=
  { w with s := w.s.Unlock, trace := w.trace ++ [Event.store] }

/-- The call `runtime.Gosched()`: the caller gives up the processor and the other goroutines
run. -/
def Gosched (env : Env) (w : World) : World :=
  { s := { lock := env w.yields w.s.lock }, yields := w.yields + 1,
    trace := w.trace ++ [Event.gosched] }

/-- The call `time.Sleep(ms * time.Millisecond)`. -/
def Sleep (ms : Nat) (w : World) : World :=
  { w with trace := w.trace ++ [Event.sleep ms] }

/-! ## Sequences of `TryLock` and `Unlock` -/

/-- An operation some caller applies to the lock. -/
inductive Op where
  | tryLock
  | unlock
deriving DecidableEq, Repr

/-- The result of an operation: the boolean of `TryLock`, nothing for `Unlock`. -/
def Op.apply (o : Op) (s : SpinLock) : Option Bool × SpinLock :=
  match o with
  | Op.tryLock => (some s.TryLock.1, s.TryLock.2)
  | Op.unlock => (none, s.Unlock)

/-- The lock after a sequence of operations, each one atomic, in the order they take effect. -/
def execOps (s : SpinLock) : List Op → SpinLock
  | [] => s
  | o :: os => execOps (o.apply s).2 os

/-- The results of a sequence of operations, one per operation. -/
def runOps (s : SpinLock) : List Op → List (Option Bool)
  | [] => []
  | o :: os => (o.apply s).1 :: runOps (o.apply s).2 os

/-- The number of `TryLock` calls that returned `true` among some results. -/
def successes (rs : List (Option Bool)) : Nat := rs.count (some true)

/-- The number of `TryLock` calls that returned `false` among some results. -/
def failures (rs : List (Option Bool)) : Nat := rs.count (some false)

/-- The attempts of the callers `order`, one `TryLock` each and no `Unlock`, in the order in
which their compare-and-swap steps take effect: every caller with the result it got. -/
def attemptsBy (s : SpinLock) (order : List Nat) : List (Nat × Option Bool) :=
  order.zip (runOps s (order.map fun _ => Op.tryLock))

/-- The callers whose `TryLock` returned `b`. -/
def callersWith (b : Bool) (rs : List (Nat × Option Bool)) : List Nat :=
  (rs.filter fun p => p.2 = some b).map Prod.fst

/-! ## The polling loops -/

/-- The outcome of one evaluation of a loop condition: go round again, or leave the loop. -/
inductive Loop (α β : Type) where
  | next (a : α)
  | done (b : β)

/-- A polling loop in progress: the world and the local counter `freq`. -/
structure Frame where
  w : World
  freq : Nat
deriving DecidableEq, Repr

/-- One evaluation of the condition `!s.TryLock()` of the loop of `Lock` and, if the attempt
failed, one pass through the body: `runtime.Gosched()`, `freq++`, and at
`freq == spinLockSleepOneFrequency` the sleep of 1 ms and `freq = 0`. -/
def Lock.iteration (env : Env) (f : Frame) : Loop Frame Frame :=
  let r := f.w.TryLock
  if r.1 then Loop.done { w := r.2, freq := f.freq }
  else
    let w1 := Gosched env r.2
    let freq := f.freq + 1
    if freq = spinLockSleepOneFrequency then Loop.next { w := Sleep 1 w1, freq := 0 }
    else Loop.next { w := w1, freq := freq }

/-- The loop of `Lock`, at most `fuel` evaluations of its condition. -/
def Lock.loop (env : Env) : Nat → Frame → Option Frame
  | 0, _ => none
  | fuel + 1, f =>
    match Lock.iteration env f with
    | Loop.done f1 => some f1
    | Loop.next f1 => Lock.loop env fuel f1

/-- The method `Lock`: `freq := 0`, then the loop. -/
def World.Lock (env : Env) (fuel : Nat) (w : World) : Option World :=
  (Lock.loop env fuel { w := w, freq := 0 }).map Frame.w

/-- One evaluation of the condition of the loop of `LockWithMaxAttempts` and, if the attempt
failed, one pass through the body, which differs from the body of `Lock` by the test
`freq == spinLockMaxAttempts` and its `return false`, placed inside the branch
`freq == spinLockSleepOneFrequency`. Leaving the loop carries the value returned. -/
def LockWithMaxAttempts.iteration (env : Env) (f : Frame) : Loop Frame (Bool × Frame) :=
  let r := f.w.TryLock
  if r.1 then Loop.done (true, { w := r.2, freq := f.freq })
  else
    let w1 := Gosched env r.2
    let freq := f.freq + 1
    if freq = spinLockSleepOneFrequency then
      if freq = spinLockMaxAttempts then Loop.done (false, { w := w1, freq := freq })
      else Loop.next { w := Sleep 1 w1, freq := 0 }
    else Loop.next { w := w1, freq := freq }

/-- The loop of `LockWithMaxAttempts`, at most `fuel` evaluations of its condition. -/
def LockWithMaxAttempts.loop (env : Env) : Nat → Frame → Option (Bool × Frame)
  | 0, _ => none
  | fuel + 1, f =>
    match LockWithMaxAttempts.iteration env f with
    | Loop.done b => some b
    | Loop.next f1 => LockWithMaxAttempts.loop env fuel f1

/-- The method `LockWithMaxAttempts`: the value returned and the world on return. -/
def World.LockWithMaxAttempts (env : Env) (fuel : Nat) (w : World) : Option (Bool × World) :=
  (LockWithMaxAttempts.loop env fuel { w := w, freq := 0 }).map fun b => (b.1, b.2.w)

/-- A Go closure of type `func() bool` that captured variables of type `σ`: a call returns
the boolean and may change the captured variables and the world. -/
abbrev Predicate (σ : Type) := σ → World → Bool × σ × World

/-- One evaluation of `condition()` in the loop of `SpinWait` and, if it returned `true`, one
pass through the body (the same body as in `Lock`). -/
def SpinWait.iteration {σ : Type} (env : Env) (condition : Predicate σ) (c : σ) (f : Frame) :
    Loop (σ × Frame) (σ × Frame) :=
  let r := condition c f.w
  if r.1 then
    let w1 := Gosched env r.2.2
    let freq := f.freq + 1
    if freq = spinLockSleepOneFrequency then Loop.next (r.2.1, { w := Sleep 1 w1, freq := 0 })
    else Loop.next (r.2.1, { w := w1, freq := freq })
  else Loop.done (r.2.1, { w := r.2.2, freq := f.freq })

/-- The loop of `SpinWait`, at most `fuel` evaluations of `condition()`. -/
def SpinWait.loop {σ : Type} (env : Env) (condition : Predicate σ) :
    Nat → σ → Frame → Option (σ × Frame)
  | 0, _, _ => none
  | fuel + 1, c, f =>
    match SpinWait.iteration env condition c f with
    | Loop.done r => some r
    | Loop.next r => SpinWait.loop env condition fuel r.1 r.2

/-- The function `SpinWait`: the captured variables of the closure and the world on return. -/
def SpinWait {σ : Type} (env : Env) (condition : Predicate σ) (fuel : Nat) (c : σ) (w : World) :
    Option (σ × World) :=
  (SpinWait.loop env condition fuel c { w := w, freq := 0 }).map fun r => (r.1, r.2.w)

/-! ## Describing runs -/

/-- The lock word a polling caller finds at its attempt number `n + 1` when its earlier
attempts all failed: a failed compare-and-swap leaves the word alone, and the other goroutines
change it during each yield. -/
def wordAt (env : Env) (w : World) : Nat → Int
  | 0 => w.s.lock
  | n + 1 => env (w.yields + n) (wordAt env w n)

/-- The closure `func() bool { n++; return r(n-1) }` over a captured counter `n`: its call
number `i + 1` returns `r i`, and `n` counts the calls. -/
def countingPredicate (r : Nat → Bool) : Predicate Nat :=
  fun n w => (r n, n + 1, w)

/-- Stated from the specification: what failed attempt number `i` (counted from 1) adds to the
trace, a failed compare-and-swap, one yield and, when `i` is a multiple of 50, a sleep of
1 ms. -/
def failedRound (i : Nat) : List Event :=
  if i % 50 = 0 then [Event.cas false, Event.gosched, Event.sleep 1]
  else [Event.cas false, Event.gosched]

/-- Stated from the specification: the trace of failed attempts number `c + 1` to `c + k`. -/
def backoffFrom (c : Nat) : Nat → List Event
  | 0 => []
  | k + 1 => failedRound (c + 1) ++ backoffFrom (c + 1) k

/-- Stated from the specification: the trace of the first `k` failed attempts of a call. -/
def backoffTrace (k : Nat) : List Event := backoffFrom 0 k

/-- Stated from the specification: the frame after a failed attempt of `Lock`, `SpinWait` or `LockWithMaxAttempts` made with
`c` failures behind it. -/
def afterFailure (env : Env) (w : World) (c : Nat) : Frame :=
  { w := { s := { lock := env w.yields w.s.lock }, yields := w.yields + 1,
           trace := w.trace ++ failedRound (c + 1) },
    freq := (c + 1) % 50 }

/-- The frame of the loop of `Lock` at evaluation number `n + 1` of its condition, that is
after `n` failed attempts; `none` if the loop has exited before. -/
def Lock.frameAt (env : Env) : Nat → Frame → Option Frame
  | 0, f => some f
  | n + 1, f =>
    match Lock.iteration env f with
    | Loop.done _ => none
    | Loop.next f1 => Lock.frameAt env n f1

/-- The frame of the loop of `LockWithMaxAttempts` at evaluation number `n + 1` of its
condition; `none` if the loop has exited before. -/
def LockWithMaxAttempts.frameAt (env : Env) : Nat → Frame → Option Frame
  | 0, f => some f
  | n + 1, f =>
    match LockWithMaxAttempts.iteration env f with
    | Loop.done _ => none
    | Loop.next f1 => LockWithMaxAttempts.frameAt env n f1

/-- The captured variables and the frame of the loop of `SpinWait` at evaluation number
`n + 1` of `condition()`; `none` if the loop has exited before. -/
def SpinWait.frameAt {σ : Type} (env : Env) (condition : Predicate σ) :
    Nat → σ → Frame → Option (σ × Frame)
  | 0, c, f => some (c, f)
  | n + 1, c, f =>
    match SpinWait.iteration env condition c f with
    | Loop.done _ => none
    | Loop.next r => SpinWait.frameAt env condition n r.1 r.2

/-- The closure `func() bool { return !s.TryLock() }`: it captures only the lock. -/
def tryLockFails : Predicate Unit :=
  fun _ w => (!w.TryLock.1, (), w.TryLock.2)

/-- The interference under which a lock is released during the yield number `n + 1` of the
polling caller, and not touched otherwise. -/
def releasedAt (n : Nat) : Env := fun i v => if i = n then 0 else v

/-! ## Operations with their callers -/

/-- The results of a sequence of operations, each with the caller that issued it. -/
def runBy (s : SpinLock) : List (Nat × Op) → List (Nat × Option Bool)
  | [] => []
  | (c, o) :: os => (c, (o.apply s).1) :: runBy (o.apply s).2 os

/-- The callers that hold an acquisition after a sequence of operations: those whose `TryLock`
returned `true` and that have not called `Unlock` themselves since. `held` lists the holders
before the sequence. -/
def holdersAfter (s : SpinLock) (held : List Nat) : List (Nat × Op) → List Nat
  | [] => held
  | (c, Op.tryLock) :: os =>
    if s.TryLock.1 then holdersAfter s.TryLock.2 (held ++ [c]) os
    else holdersAfter s.TryLock.2 held os
  | (c, Op.unlock) :: os => holdersAfter s.Unlock (held.filter fun d => decide (d ≠ c)) os

/-! ## The workers of `testSpinLock`

`testSpinLock` starts `ThreadCount` goroutines; each runs `JobCount` times
`spinLock.Lock(); sum += 1; spinLock.Unlock()` on the shared `var sum int64`. The two constants
are the parameters `N` and `M` here. The goroutines are interleaved at the level of their
shared-memory steps: one `TryLock`, the read and the write of `sum += 1`, one `Unlock`; a
schedule lists, step by step, which worker moves. -/

/-- The value an `int64` holds after arithmetic whose exact result is `x` (Go wraps around). -/
def wrapInt64 (x : Int) : Int :=
  (x + 9223372036854775808) % 18446744073709551616 - 9223372036854775808

/-- Where a worker stands in `for j := 0; j < JobCount; j++ { Lock(); sum += 1; Unlock() }`. -/
inductive Pc where
  /-- In `Lock`, at the loop condition `!s.TryLock()`, with the local `freq`. -/
  | tryLock (freq : Nat)
  /-- In `Lock`, the attempt failed: at `runtime.Gosched()`, `freq++` and the threshold test. -/
  | gosched (freq : Nat)
  /-- In `Lock`, `freq` reached 50: at `time.Sleep` and `freq = 0`. -/
  | sleep
  /-- `Lock` returned: at the read of `sum`. -/
  | load
  /-- Has read `v` from `sum`: at the write of `v + 1` to `sum`. -/
  | store (v : Int)
  /-- At `spinLock.Unlock()`, followed by `j++` and the test `j < JobCount`. -/
  | unlock
  /-- The loop is over. -/
  | done
deriving DecidableEq, Repr

/-- A worker goroutine: its loop variable `j` and where it stands. -/
structure Worker where
  j : Nat
  pc : Pc
deriving DecidableEq, Repr

/-- The shared memory and the workers. -/
structure System where
  lock : SpinLock
  sum : Int
  workers : List Worker
deriving DecidableEq, Repr

/-- A worker entering its loop: `j := 0` and the test `j < JobCount`. -/
def Worker.start (M : Nat) : Worker :=
  { j := 0, pc := if 0 < M then Pc.tryLock 0 else Pc.done }

/-- The state in which `testSpinLock` starts its `N` goroutines: a new lock and `sum = 0`. -/
def System.init (N M : Nat) : System :=
  { lock := NewSpinLock, sum := 0, workers := List.replicate N (Worker.start M) }

/-- One step of a worker on the shared lock and counter. -/
def Worker.step (M : Nat) (lock : SpinLock) (sum : Int) (wk : Worker) :
    SpinLock × Int × Worker :=
  match wk.pc with
  | Pc.tryLock freq =>
    if lock.TryLock.1 then (lock.TryLock.2, sum, { wk with pc := Pc.load })
    else (lock.TryLock.2, sum, { wk with pc := Pc.gosched freq })
  | Pc.gosched freq =>
    if freq + 1 = spinLockSleepOneFrequency then (lock, sum, { wk with pc := Pc.sleep })
    else (lock, sum, { wk with pc := Pc.tryLock (freq + 1) })
  | Pc.sleep => (lock, sum, { wk with pc := Pc.tryLock 0 })
  | Pc.load => (lock, sum, { wk with pc := Pc.store sum })
  | Pc.store v => (lock, wrapInt64 (v + 1), { wk with pc := Pc.unlock })
  | Pc.unlock =>
    (lock.Unlock, sum, { j := wk.j + 1, pc := if wk.j + 1 < M then Pc.tryLock 0 else Pc.done })
  | Pc.done => (lock, sum, wk)

/-- Worker number `i` makes one step (nothing happens if there is no such worker). -/
def System.step (M : Nat) (st : System) (i : Nat) : System :=
  match st.workers[i]? with
  | none => st
  | some wk =>
    let r := wk.step M st.lock st.sum
    { lock := r.1, sum := r.2.1, workers := st.workers.set i r.2.2 }

/-- The system after the steps of a schedule. -/
def System.run (M : Nat) (st : System) (sched : List Nat) : System :=
  sched.foldl (System.step M) st

/-- Every worker has finished its loop (`wg.Wait()` returns). -/
def System.allDone (st : System) : Bool :=
  st.workers.all fun wk => decide (wk.pc = Pc.done)

/-- Whether a worker holds the lock: between a successful `TryLock` and its `Unlock`. -/
def Worker.inCS (wk : Worker) : Bool :=
  match wk.pc with
  | Pc.load => true
  | Pc.store _ => true
  | Pc.unlock => true
  | _ => false

/-- The number of increments a worker has written to `sum`. -/
def Worker.count (wk : Worker) : Nat :=
  match wk.pc with
  | Pc.unlock => wk.j + 1
  | _ => wk.j

/-- The number of increments written by all the workers. -/
def totalCount (ws : List Worker) : Nat := (ws.map Worker.count).sum

/-- The schedule that lets the workers `0, ..., N - 1` run one after the other, each for its
`M` rounds of four steps. -/
def sequentialSchedule (N M : Nat) : List Nat :=
  (List.range N).flatMap fun i => List.replicate (4 * M) i

/-- The invariant of the interleaved workers: a worker that holds the lock finds the lock word
at 1 and is the only one that holds it; `sum` is the (wrapped) number of increments written; a
worker about to write holds the current value of `sum`; and `j` stays within the loop bound. -/
structure Inv (M : Nat) (st : System) : Prop where
  excl : ∀ (k : Nat) (wk : Worker), st.workers[k]? = some wk → wk.inCS = true →
    st.lock.lock = 1 ∧
      ∀ (k1 : Nat) (wk1 : Worker), st.workers[k1]? = some wk1 → wk1.inCS = true → k1 = k
  total : st.sum = wrapInt64 (totalCount st.workers)
  loaded : ∀ (k : Nat) (wk : Worker) (v : Int),
    st.workers[k]? = some wk → wk.pc = Pc.store v → v = st.sum
  bound : ∀ (k : Nat) (wk : Worker), st.workers[k]? = some wk →
    (wk.pc = Pc.done → wk.j = M) ∧ (wk.pc ≠ Pc.done → wk.j < M)

/-! ## Theorems: single operations and sequences of operations -/

theorem runOps_length (s : SpinLock) (ops : List Op) : (runOps s ops).length = ops.length := by
  induction ops generalizing s with
  | nil => rfl
  | cons o os ih => simp [runOps, ih]

theorem runOps_take (s : SpinLock) (ops : List Op) (n : Nat) :
    (runOps s ops).take n = runOps s (ops.take n) := by
  induction ops generalizing s n with
  | nil => simp [runOps]
  | cons o os ih =>
    cases n with
    | zero => simp [runOps]
    | succ n => simp [runOps, ih]

theorem runOps_drop (s : SpinLock) (ops : List Op) (n : Nat) :
    (runOps s ops).drop n = runOps (execOps s (ops.take n)) (ops.drop n) := by
  induction ops generalizing s n with
  | nil => simp [runOps, execOps]
  | cons o os ih =>
    cases n with
    | zero => simp [runOps, execOps]
    | succ n => simp [runOps, execOps, ih]

theorem TryLock_of_ne_zero (s : SpinLock) (h : s.lock ≠ 0) : s.TryLock = (false, s) := by
  simp [SpinLock.TryLock, CompareAndSwapInt32, h]

theorem TryLock_of_zero (s : SpinLock) (h : s.lock = 0) : s.TryLock = (true, { lock := 1 }) := by
  simp [SpinLock.TryLock, CompareAndSwapInt32, h]

theorem successes_cons (r : Option Bool) (rs : List (Option Bool)) :
    successes (r :: rs) = (if r = some true then 1 else 0) + successes rs := by
  unfold successes
  rw [List.count_cons]
  by_cases h : r = some true
  · simp [h, Nat.add_comm]
  · have h2 : ¬ ((r == some true) = true) := by simpa using h
    simp [h, h2]

theorem failures_cons (r : Option Bool) (rs : List (Option Bool)) :
    failures (r :: rs) = (if r = some false then 1 else 0) + failures rs := by
  unfold failures
  rw [List.count_cons]
  by_cases h : r = some false
  · simp [h, Nat.add_comm]
  · have h2 : ¬ ((r == some false) = true) := by simpa using h
    simp [h, h2]

/-- While the lock word is not `0` and nobody unlocks, no `TryLock` succeeds. -/
theorem successes_of_held (s : SpinLock) (h : s.lock ≠ 0) (ops : List Op)
    (hu : Op.unlock ∉ ops) : successes (runOps s ops) = 0 := by
  induction ops with
  | nil => rfl
  | cons o os ih =>
    cases o with
    | unlock => simp at hu
    | tryLock =>
      have hu2 : Op.unlock ∉ os := fun hm => hu (List.mem_cons_of_mem _ hm)
      simp [runOps, Op.apply, TryLock_of_ne_zero s h, successes_cons, ih hu2]

/-- Without an `Unlock`, at most one `TryLock` succeeds, whatever the lock word is. -/
theorem successes_le_one (s : SpinLock) (ops : List Op) (hu : Op.unlock ∉ ops) :
    successes (runOps s ops) ≤ 1 := by
  induction ops generalizing s with
  | nil => simp [runOps, successes]
  | cons o os ih =>
    cases o with
    | unlock => simp at hu
    | tryLock =>
      have hu2 : Op.unlock ∉ os := fun hm => hu (List.mem_cons_of_mem _ hm)
      by_cases h : s.lock = 0
      · have h1 : ({ lock := 1 } : SpinLock).lock ≠ 0 := by simp
        simp [runOps, Op.apply, TryLock_of_zero s h, successes_cons,
          successes_of_held _ h1 os hu2]
      · simp [runOps, Op.apply, TryLock_of_ne_zero s h, successes_cons]
        exact ih s hu2

/-- C1. Mutual exclusion: run any finite sequence of `TryLock` and `Unlock` operations on a
new lock and look at any stretch of it that contains no `Unlock` (the operations between one
`Unlock` and the next, or those before the first `Unlock`): at most one `TryLock` of the
stretch returns `true`. -/
theorem mutual_exclusion_between_unlocks (ops : List Op) (start len : Nat)
    (hu : Op.unlock ∉ (ops.drop start).take len) :
    successes (((runOps NewSpinLock ops).drop start).take len) ≤ 1 := by
  rw [runOps_drop, runOps_take]
  exact successes_le_one _ _ hu

/-- Witness for C1: `TryLock, TryLock, Unlock, TryLock, TryLock`, the stretch after the
`Unlock`. -/
theorem mutual_exclusion_between_unlocks_witness :
    Op.unlock ∉ ([Op.tryLock, Op.tryLock, Op.unlock, Op.tryLock, Op.tryLock].drop 3).take 2 ∧
    successes (((runOps NewSpinLock
      [Op.tryLock, Op.tryLock, Op.unlock, Op.tryLock, Op.tryLock]).drop 3).take 2) ≤ 1 :=
  ⟨by decide, mutual_exclusion_between_unlocks _ 3 2 (by decide)⟩

/-- C2. On a lock that is Free or Held, `TryLock` is one compare-and-swap of `0` to `1`: it
returns `true` exactly when the lock was Free, the lock is Held afterwards, the lock is
unchanged exactly when the call returned `false`, and the only event of the call is that one
compare-and-swap (no yield, no sleep). -/
theorem TryLock_single_cas (w : World) (h : w.s.Free ∨ w.s.Held) :
    (w.TryLock.1 = true ↔ w.s.Free) ∧
    w.TryLock.1 = (CompareAndSwapInt32 w.s.lock 0 1).1 ∧
    w.TryLock.2.s.Held ∧
    (w.TryLock.2.s = w.s ↔ w.TryLock.1 = false) ∧
    w.TryLock.2.trace = w.trace ++ [Event.cas w.TryLock.1] ∧
    w.TryLock.2.yields = w.yields := by
  obtain ⟨⟨l⟩, y, t⟩ := w
  rcases h with h | h
  · simp only [SpinLock.Free] at h
    subst h
    simp [World.TryLock, SpinLock.TryLock, CompareAndSwapInt32, SpinLock.Free, SpinLock.Held]
  · simp only [SpinLock.Held] at h
    subst h
    simp [World.TryLock, SpinLock.TryLock, CompareAndSwapInt32, SpinLock.Free, SpinLock.Held]

/-- Witness for C2: `TryLock` on a new lock. -/
theorem TryLock_single_cas_witness :
    ((World.init NewSpinLock).TryLock.1 = true ↔ (World.init NewSpinLock).s.Free) ∧
    (World.init NewSpinLock).TryLock.1 = (CompareAndSwapInt32 (World.init NewSpinLock).s.lock 0 1).1 ∧
    (World.init NewSpinLock).TryLock.2.s.Held ∧
    ((World.init NewSpinLock).TryLock.2.s = (World.init NewSpinLock).s ↔
      (World.init NewSpinLock).TryLock.1 = false) ∧
    (World.init NewSpinLock).TryLock.2.trace =
      (World.init NewSpinLock).trace ++ [Event.cas (World.init NewSpinLock).TryLock.1] ∧
    (World.init NewSpinLock).TryLock.2.yields = (World.init NewSpinLock).yields :=
  TryLock_single_cas (World.init NewSpinLock) (Or.inl (by decide))

/-- C3. Whatever the lock word holds, `Unlock` leaves the lock Free, a `TryLock` right after it
returns `true`, and `Unlock` does nothing else: its only event is the store to the lock word. -/
theorem Unlock_then_TryLock (w : World) :
    w.Unlock.s.Free ∧ w.Unlock.s = { lock := 0 } ∧ w.Unlock.TryLock.1 = true ∧
    w.Unlock.trace = w.trace ++ [Event.store] ∧ w.Unlock.yields = w.yields := by
  simp [World.Unlock, SpinLock.Unlock, StoreInt32, World.TryLock, SpinLock.TryLock,
    CompareAndSwapInt32, SpinLock.Free]

/-! ## Theorems: the polling loops -/

theorem World.tryLock_free (w : World) (h : w.s.lock = 0) :
    w.TryLock = (true, { w with s := { lock := 1 }, trace := w.trace ++ [Event.cas true] }) := by
  simp [World.TryLock, SpinLockGo.TryLock_of_zero w.s h]

theorem World.tryLock_taken (w : World) (h : w.s.lock ≠ 0) :
    w.TryLock = (false, { w with trace := w.trace ++ [Event.cas false] }) := by
  simp [World.TryLock, SpinLockGo.TryLock_of_ne_zero w.s h]

/-- After one failed round the caller sees the rest of the schedule. -/
theorem wordAt_shift (env : Env) (w w1 : World) (hy : w1.yields = w.yields + 1)
    (hl : w1.s.lock = env w.yields w.s.lock) (n : Nat) :
    wordAt env w1 n = wordAt env w (n + 1) := by
  induction n with
  | zero => simp [wordAt, hl]
  | succ n ih =>
    rw [wordAt, ih, hy]
    conv_rhs => rw [wordAt]
    rw [Nat.add_assoc, Nat.add_comm 1 n]

theorem Lock.iteration_free (env : Env) (w : World) (freq : Nat) (h : w.s.lock = 0) :
    Lock.iteration env { w := w, freq := freq } =
      Loop.done { w := { w with s := { lock := 1 }, trace := w.trace ++ [Event.cas true] },
                  freq := freq } := by
  simp [Lock.iteration, World.tryLock_free w h]

theorem Lock.iteration_taken (env : Env) (w : World) (c : Nat) (h : w.s.lock ≠ 0) :
    Lock.iteration env { w := w, freq := c % 50 } = Loop.next (afterFailure env w c) := by
  have hm : c % 50 < 50 := Nat.mod_lt _ (by decide)
  by_cases hc : c % 50 + 1 = 50
  · have h0 : (c + 1) % 50 = 0 := by omega
    simp [Lock.iteration, World.tryLock_taken w h, spinLockSleepOneFrequency, hc,
      afterFailure, failedRound, h0, Gosched, Sleep]
  · have h0 : (c + 1) % 50 = c % 50 + 1 := by omega
    have h1 : ¬ ((c + 1) % 50 = 0) := by omega
    simp [Lock.iteration, World.tryLock_taken w h, spinLockSleepOneFrequency, hc,
      afterFailure, failedRound, h0, h1, Gosched]

theorem Lock.loop_spec (env : Env) : ∀ (k c : Nat) (w : World) (fuel : Nat),
    (∀ i, i < k → wordAt env w i ≠ 0) → wordAt env w k = 0 → k < fuel →
    Lock.loop env fuel { w := w, freq := c % 50 } =
      some { w := { s := { lock := 1 }, yields := w.yields + k,
                    trace := w.trace ++ backoffFrom c k ++ [Event.cas true] },
             freq := (c + k) % 50 } := by
  intro k
  induction k with
  | zero =>
    intro c w fuel _ hok hfuel
    obtain ⟨fuel, rfl⟩ : ∃ m, fuel = m + 1 := ⟨fuel - 1, by omega⟩
    have h0 : w.s.lock = 0 := by simpa [wordAt] using hok
    simp [Lock.loop, Lock.iteration_free env w _ h0, backoffFrom]
  | succ k ih =>
    intro c w fuel hfail hok hfuel
    obtain ⟨fuel, rfl⟩ : ∃ m, fuel = m + 1 := ⟨fuel - 1, by omega⟩
    have h0 : w.s.lock ≠ 0 := by simpa [wordAt] using hfail 0 (Nat.succ_pos k)
    have hs : ∀ n, wordAt env (afterFailure env w c).w n = wordAt env w (n + 1) :=
      wordAt_shift env w _ rfl rfl
    have hfail1 : ∀ i, i < k → wordAt env (afterFailure env w c).w i ≠ 0 := by
      intro i hi
      rw [hs]
      exact hfail (i + 1) (by omega)
    have hok1 : wordAt env (afterFailure env w c).w k = 0 := by rw [hs]; exact hok
    have key := ih (c + 1) (afterFailure env w c).w fuel hfail1 hok1 (by omega)
    simp only [Lock.loop, Lock.iteration_taken env w c h0]
    have hf : (afterFailure env w c) =
        { w := (afterFailure env w c).w, freq := (c + 1) % 50 } := rfl
    rw [hf, key]
    simp [afterFailure, backoffFrom, Nat.add_assoc, Nat.add_comm 1 k]

theorem failedRound_count_gosched (i : Nat) : (failedRound i).count Event.gosched = 1 := by
  unfold failedRound
  split <;> decide

theorem failedRound_count_casFalse (i : Nat) :
    (failedRound i).count (Event.cas false) = 1 := by
  unfold failedRound
  split <;> decide

theorem failedRound_count_casTrue (i : Nat) :
    (failedRound i).count (Event.cas true) = 0 := by
  unfold failedRound
  split <;> decide

theorem failedRound_count_sleep (i : Nat) :
    (failedRound (i + 1)).count (Event.sleep 1) = (i + 1) / 50 - i / 50 := by
  unfold failedRound
  split
  · next h =>
    have : (i + 1) / 50 - i / 50 = 1 := by omega
    rw [this]; decide
  · next h =>
    have : (i + 1) / 50 - i / 50 = 0 := by omega
    rw [this]; decide

theorem backoffFrom_count_gosched (c k : Nat) :
    (backoffFrom c k).count Event.gosched = k := by
  induction k generalizing c with
  | zero => rfl
  | succ k ih =>
    rw [backoffFrom, List.count_append, failedRound_count_gosched, ih]; omega

theorem backoffFrom_count_casFalse (c k : Nat) :
    (backoffFrom c k).count (Event.cas false) = k := by
  induction k generalizing c with
  | zero => rfl
  | succ k ih =>
    rw [backoffFrom, List.count_append, failedRound_count_casFalse, ih]; omega

theorem backoffFrom_count_casTrue (c k : Nat) :
    (backoffFrom c k).count (Event.cas true) = 0 := by
  induction k generalizing c with
  | zero => rfl
  | succ k ih =>
    rw [backoffFrom, List.count_append, failedRound_count_casTrue, ih]

theorem backoffFrom_count_sleep (c k : Nat) :
    (backoffFrom c k).count (Event.sleep 1) = (c + k) / 50 - c / 50 := by
  induction k generalizing c with
  | zero => simp [backoffFrom]
  | succ k ih =>
    rw [backoffFrom, List.count_append, failedRound_count_sleep, ih]
    have : c + 1 + k = c + (k + 1) := by omega
    rw [this]
    have h1 : c / 50 ≤ (c + 1) / 50 := Nat.div_le_div_right (by omega)
    have h2 : (c + 1) / 50 ≤ (c + (k + 1)) / 50 := Nat.div_le_div_right (by omega)
    omega

theorem backoffFrom_append (c j m : Nat) :
    backoffFrom c (j + m) = backoffFrom c j ++ backoffFrom (c + j) m := by
  induction j generalizing c with
  | zero => simp [backoffFrom]
  | succ j ih =>
    have : j + 1 + m = (j + m) + 1 := by omega
    rw [this, backoffFrom, backoffFrom, ih, List.append_assoc]
    have : c + 1 + j = c + (j + 1) := by omega
    rw [this]

/-! ## Theorems: the claims about the loops -/

theorem attemptsBy_of_held (s : SpinLock) (h : s.lock ≠ 0) (order : List Nat) :
    attemptsBy s order = order.map fun c => (c, some false) := by
  induction order with
  | nil => rfl
  | cons c cs ih =>
    simp only [attemptsBy] at ih ⊢
    simp only [List.map_cons, runOps, Op.apply, TryLock_of_ne_zero s h, List.zip_cons_cons, ih]

theorem attemptsBy_of_free (s : SpinLock) (h : s.lock = 0) (c : Nat) (cs : List Nat) :
    attemptsBy s (c :: cs) = (c, some true) :: cs.map fun d => (d, some false) := by
  have h1 : ({ lock := 1 } : SpinLock).lock ≠ 0 := by simp
  have h2 := attemptsBy_of_held _ h1 cs
  simp only [attemptsBy] at h2 ⊢
  simp only [List.map_cons, runOps, Op.apply, TryLock_of_zero s h, List.zip_cons_cons, h2]

theorem callersWith_true_of_failed (cs : List Nat) :
    callersWith true (cs.map fun d => (d, some false)) = [] := by
  unfold callersWith
  induction cs with
  | nil => rfl
  | cons d ds ih => simp [List.filter_cons]

theorem callersWith_false_of_failed (cs : List Nat) :
    callersWith false (cs.map fun d => (d, some false)) = cs := by
  unfold callersWith
  induction cs with
  | nil => rfl
  | cons d ds ih => simpa [List.filter_cons] using ih

/-- C4. The concrete scenario on a new lock, with no other goroutine interfering: the lock
starts Free; `Lock` returns after one successful attempt, no yield and no sleep, and the lock
is Held; `TryLock` returns `false` and leaves the lock Held; `Unlock` makes it Free; `TryLock`
returns `true` and the lock is Held. -/
theorem concrete_scenario :
    (World.init NewSpinLock).s.Free ∧
    (∀ fuel, World.Lock Env.quiet (fuel + 1) (World.init NewSpinLock) =
      some { s := { lock := 1 }, yields := 0, trace := [Event.cas true] }) ∧
    (World.TryLock { s := { lock := 1 }, yields := 0, trace := [Event.cas true] } =
      (false, { s := { lock := 1 }, yields := 0,
                trace := [Event.cas true, Event.cas false] })) ∧
    (World.Unlock { s := { lock := 1 }, yields := 0,
                    trace := [Event.cas true, Event.cas false] } =
      { s := { lock := 0 }, yields := 0,
        trace := [Event.cas true, Event.cas false, Event.store] }) ∧
    (World.TryLock { s := { lock := 0 }, yields := 0,
                     trace := [Event.cas true, Event.cas false, Event.store] } =
      (true, { s := { lock := 1 }, yields := 0,
               trace := [Event.cas true, Event.cas false, Event.store, Event.cas true] })) ∧
    SpinLock.Held { lock := 1 } ∧ SpinLock.Free { lock := 0 } := by
  refine ⟨by decide, fun fuel => rfl, by decide, by decide, by decide, by decide, by decide⟩

/-- C5. When `n >= 1` callers each make one `TryLock` attempt on a Free lock and nobody
unlocks, then in whatever order the attempts take effect exactly one caller gets `true` (the
one whose compare-and-swap comes first) and the other `n - 1` callers get `false`. -/
theorem tryLock_exactly_one_winner (s : SpinLock) (hs : s.Free) (order : List Nat)
    (hn : 1 ≤ order.length) :
    (callersWith true (attemptsBy s order)).length = 1 ∧
    (callersWith false (attemptsBy s order)).length = order.length - 1 ∧
    (attemptsBy s order).length = order.length ∧
    callersWith true (attemptsBy s order) = order.take 1 ∧
    callersWith false (attemptsBy s order) = order.drop 1 := by
  cases order with
  | nil => simp at hn
  | cons c cs =>
    have hf := callersWith_true_of_failed cs
    have hg := callersWith_false_of_failed cs
    have ht : callersWith true ((c, some true) :: cs.map fun d => (d, some false)) =
        c :: callersWith true (cs.map fun d => (d, some false)) := by
      simp [callersWith, List.filter_cons]
    have hfl : callersWith false ((c, some true) :: cs.map fun d => (d, some false)) =
        callersWith false (cs.map fun d => (d, some false)) := by
      simp [callersWith, List.filter_cons]
    rw [attemptsBy_of_free s hs c cs, ht, hfl, hf, hg]
    simp

/-- Witness for C5: three callers, taking effect in the order 2, 0, 1. -/
theorem tryLock_exactly_one_winner_witness :
    (callersWith true (attemptsBy NewSpinLock [2, 0, 1])).length = 1 ∧
    (callersWith false (attemptsBy NewSpinLock [2, 0, 1])).length = [2, 0, 1].length - 1 ∧
    (attemptsBy NewSpinLock [2, 0, 1]).length = [2, 0, 1].length ∧
    callersWith true (attemptsBy NewSpinLock [2, 0, 1]) = [2, 0, 1].take 1 ∧
    callersWith false (attemptsBy NewSpinLock [2, 0, 1]) = [2, 0, 1].drop 1 :=
  tryLock_exactly_one_winner NewSpinLock (by decide) [2, 0, 1] (by decide)

theorem LockWithMaxAttempts.capped_iteration_free (env : Env) (w : World) (freq : Nat)
    (h : w.s.lock = 0) :
    LockWithMaxAttempts.iteration env { w := w, freq := freq } =
      Loop.done (true,
        { w := { w with s := { lock := 1 }, trace := w.trace ++ [Event.cas true] },
          freq := freq }) := by
  simp [LockWithMaxAttempts.iteration, World.tryLock_free w h]

/-- A failed attempt of `LockWithMaxAttempts` never leaves the loop: at the test
`freq == spinLockMaxAttempts` the counter is 50. -/
theorem LockWithMaxAttempts.capped_iteration_taken (env : Env) (f : Frame) (h : f.w.s.lock ≠ 0) :
    ∃ f1 evs, LockWithMaxAttempts.iteration env f = Loop.next f1 ∧
      f1.w.trace = f.w.trace ++ evs ∧ Event.cas true ∉ evs ∧
      f1.w.yields = f.w.yields + 1 ∧ f1.w.s.lock = env f.w.yields f.w.s.lock := by
  by_cases hc : f.freq + 1 = 50
  · refine ⟨{ w := Sleep 1 (Gosched env { f.w with trace := f.w.trace ++ [Event.cas false] }),
              freq := 0 },
      [Event.cas false, Event.gosched, Event.sleep 1], ?_, ?_, by decide, ?_, ?_⟩
    · simp only [LockWithMaxAttempts.iteration, World.tryLock_taken f.w h,
        spinLockSleepOneFrequency, spinLockMaxAttempts, hc]
      rfl
    · simp [Gosched, Sleep]
    · simp [Gosched, Sleep]
    · simp [Gosched, Sleep]
  · refine ⟨{ w := Gosched env { f.w with trace := f.w.trace ++ [Event.cas false] },
              freq := f.freq + 1 },
      [Event.cas false, Event.gosched], ?_, ?_, by decide, ?_, ?_⟩
    · simp only [LockWithMaxAttempts.iteration, World.tryLock_taken f.w h,
        spinLockSleepOneFrequency, hc]
      rfl
    · simp [Gosched]
    · simp [Gosched]
    · simp [Gosched]

/-- On a lock that no attempt finds Free, the loop of `LockWithMaxAttempts` is still running
after any number of evaluations of its condition. -/
theorem LockWithMaxAttempts.loop_of_held (env : Env) : ∀ (fuel : Nat) (f : Frame),
    (∀ i, wordAt env f.w i ≠ 0) → LockWithMaxAttempts.loop env fuel f = none := by
  intro fuel
  induction fuel with
  | zero => intro f _; rfl
  | succ fuel ih =>
    intro f hheld
    have h0 : f.w.s.lock ≠ 0 := by simpa [wordAt] using hheld 0
    obtain ⟨f1, evs, hit, _, _, hy, hl⟩ := LockWithMaxAttempts.capped_iteration_taken env f h0
    simp only [LockWithMaxAttempts.loop, hit]
    apply ih
    intro i
    rw [wordAt_shift env f.w f1.w hy hl]
    exact hheld (i + 1)

theorem LockWithMaxAttempts.loop_true (env : Env) : ∀ (fuel : Nat) (f f1 : Frame),
    LockWithMaxAttempts.loop env fuel f = some (true, f1) →
    f1.w.s.lock = 1 ∧ ∃ evs, f1.w.trace = f.w.trace ++ evs ++ [Event.cas true] ∧
      Event.cas true ∉ evs := by
  intro fuel
  induction fuel with
  | zero => intro f f1 h; simp [LockWithMaxAttempts.loop] at h
  | succ fuel ih =>
    intro f f1 h
    by_cases h0 : f.w.s.lock = 0
    · have hit := LockWithMaxAttempts.capped_iteration_free env f.w f.freq h0
      simp only [LockWithMaxAttempts.loop, hit, Option.some.injEq, Prod.mk.injEq,
        true_and] at h
      subst h
      exact ⟨rfl, [], by simp, by simp⟩
    · obtain ⟨f2, evs, hit, htr, hno, _, _⟩ := LockWithMaxAttempts.capped_iteration_taken env f h0
      simp only [LockWithMaxAttempts.loop, hit] at h
      obtain ⟨hl, evs2, htr2, hno2⟩ := ih f2 f1 h
      refine ⟨hl, evs ++ evs2, ?_, ?_⟩
      · rw [htr2, htr]; simp
      · simp [hno, hno2]

/-- C6. A lock that is Held and that nobody releases: `LockWithMaxAttempts` does not return
`false` after a bounded number of polling cycles. Whatever the number of evaluations of the loop
condition allowed, the call has not returned. -/
theorem LockWithMaxAttempts_held_forever (fuel : Nat) :
    World.LockWithMaxAttempts Env.quiet fuel (World.init { lock := 1 }) = none := by
  have hw : ∀ i, wordAt Env.quiet (World.init { lock := 1 }) i ≠ 0 := by
    intro i
    induction i with
    | zero => simp [wordAt, World.init]
    | succ i ih => simpa [wordAt, Env.quiet] using ih
  simp [World.LockWithMaxAttempts,
    LockWithMaxAttempts.loop_of_held Env.quiet fuel { w := World.init { lock := 1 }, freq := 0 } hw]

/-- C7. Whenever `LockWithMaxAttempts` returns `true`, the lock is Held on return and the last
event of the call is its one successful compare-and-swap, every earlier attempt having failed;
on a Free lock the call returns `true` after that single attempt, with no yield and no sleep. -/
theorem LockWithMaxAttempts_true (env : Env) (w : World) :
    (∀ fuel w1, World.LockWithMaxAttempts env fuel w = some (true, w1) →
      w1.s.Held ∧ ∃ evs, w1.trace = w.trace ++ evs ++ [Event.cas true] ∧
        Event.cas true ∉ evs) ∧
    (w.s.Free → ∀ fuel, World.LockWithMaxAttempts env (fuel + 1) w =
      some (true, { w with s := { lock := 1 }, trace := w.trace ++ [Event.cas true] })) := by
  constructor
  · intro fuel w1 h
    simp only [World.LockWithMaxAttempts, Option.map_eq_some', Prod.mk.injEq] at h
    obtain ⟨⟨b, f1⟩, hloop, hb, hw⟩ := h
    simp only at hb hw
    subst hb hw
    exact LockWithMaxAttempts.loop_true env fuel _ f1 hloop
  · intro hfree fuel
    simp [World.LockWithMaxAttempts, LockWithMaxAttempts.loop,
      LockWithMaxAttempts.capped_iteration_free env w 0 hfree]

/-- Witness for C7: a Held lock released during the first yield, and a new lock. -/
theorem LockWithMaxAttempts_true_witness :
    (World.LockWithMaxAttempts (fun _ _ => 0) 2 (World.init { lock := 1 }) =
        some (true, { s := { lock := 1 }, yields := 1,
                      trace := [Event.cas false, Event.gosched, Event.cas true] }) ∧
      SpinLock.Held { lock := 1 } ∧
      ∃ evs, [Event.cas false, Event.gosched, Event.cas true] =
          (World.init { lock := 1 }).trace ++ evs ++ [Event.cas true] ∧
        Event.cas true ∉ evs) ∧
    ((World.init NewSpinLock).s.Free ∧
      World.LockWithMaxAttempts Env.quiet 1 (World.init NewSpinLock) =
        some (true, { s := { lock := 1 }, yields := 0, trace := [Event.cas true] })) :=
  ⟨⟨by decide, (LockWithMaxAttempts_true (fun _ _ => 0) (World.init { lock := 1 })).1 2
      { s := { lock := 1 }, yields := 1,
        trace := [Event.cas false, Event.gosched, Event.cas true] } (by decide)⟩,
   ⟨by decide, (LockWithMaxAttempts_true Env.quiet (World.init NewSpinLock)).2 (by decide) 0⟩⟩

theorem SpinWait.iteration_counting_true (env : Env) (r : Nat → Bool) (c : Nat) (f : Frame)
    (h : r c = true) :
    ∃ f1, SpinWait.iteration env (countingPredicate r) c f = Loop.next (c + 1, f1) ∧
      f1.w.yields = f.w.yields + 1 := by
  by_cases hc : f.freq + 1 = 50
  · exact ⟨{ w := Sleep 1 (Gosched env f.w), freq := 0 },
      by simp [SpinWait.iteration, countingPredicate, h, spinLockSleepOneFrequency, hc],
      by simp [Gosched, Sleep]⟩
  · exact ⟨{ w := Gosched env f.w, freq := f.freq + 1 },
      by simp [SpinWait.iteration, countingPredicate, h, spinLockSleepOneFrequency, hc],
      by simp [Gosched]⟩

theorem SpinWait.iteration_counting_false (env : Env) (r : Nat → Bool) (c : Nat) (f : Frame)
    (h : r c = false) :
    SpinWait.iteration env (countingPredicate r) c f = Loop.done (c + 1, f) := by
  simp [SpinWait.iteration, countingPredicate, h]

theorem SpinWait.loop_counting (env : Env) (r : Nat → Bool) : ∀ (m c : Nat) (f : Frame)
    (fuel : Nat), (∀ i, i < m → r (c + i) = true) → r (c + m) = false → m < fuel →
    ∃ f1, SpinWait.loop env (countingPredicate r) fuel c f = some (c + m + 1, f1) ∧
      f1.w.yields = f.w.yields + m := by
  intro m
  induction m with
  | zero =>
    intro c f fuel _ hfalse hfuel
    obtain ⟨fuel, rfl⟩ : ∃ n, fuel = n + 1 := ⟨fuel - 1, by omega⟩
    exact ⟨f, by simp [SpinWait.loop, SpinWait.iteration_counting_false env r c f hfalse], rfl⟩
  | succ m ih =>
    intro c f fuel htrue hfalse hfuel
    obtain ⟨fuel, rfl⟩ : ∃ n, fuel = n + 1 := ⟨fuel - 1, by omega⟩
    obtain ⟨f1, hit, hy⟩ :=
      SpinWait.iteration_counting_true env r c f (by simpa using htrue 0 (Nat.succ_pos m))
    have htrue1 : ∀ i, i < m → r (c + 1 + i) = true := by
      intro i hi
      have := htrue (i + 1) (by omega)
      rwa [show c + (i + 1) = c + 1 + i by omega] at this
    have hfalse1 : r (c + 1 + m) = false := by
      rwa [show c + (m + 1) = c + 1 + m by omega] at hfalse
    obtain ⟨f2, hloop, hy2⟩ := ih (c + 1) f1 fuel htrue1 hfalse1 (by omega)
    refine ⟨f2, ?_, by omega⟩
    simp only [SpinWait.loop, hit, hloop]
    simp [Nat.add_assoc, Nat.add_comm 1 m]

/-- C8. For every `K >= 1` and every predicate whose first `K - 1` evaluations return `true` and
whose `K`-th returns `false`, `SpinWait` returns (any fuel of at least `K` evaluations is
enough) and has then evaluated the predicate exactly `K` times, yielding once after each of
the `K - 1` evaluations that returned `true`. -/
theorem SpinWait_evaluates_K_times (env : Env) (w : World) (K : Nat) (hK : 1 ≤ K)
    (r : Nat → Bool) (htrue : ∀ i, i + 1 < K → r i = true) (hfalse : r (K - 1) = false)
    (fuel : Nat) (hfuel : K ≤ fuel) :
    ∃ w1, SpinWait env (countingPredicate r) fuel 0 w = some (K, w1) ∧
      w1.yields = w.yields + (K - 1) := by
  obtain ⟨f1, hloop, hy⟩ := SpinWait.loop_counting env r (K - 1) 0 { w := w, freq := 0 } fuel
    (by intro i hi; simpa using htrue i (by omega)) (by simpa using hfalse) (by omega)
  refine ⟨f1.w, ?_, hy⟩
  have hk : 0 + (K - 1) + 1 = K := by omega
  rw [hk] at hloop
  simp [SpinWait, hloop]

/-- Witness for C8: `K = 3`, the predicate `n < 2` of the number `n` of earlier evaluations. -/
theorem SpinWait_evaluates_K_times_witness :
    ∃ w1, SpinWait Env.quiet (countingPredicate fun n => decide (n < 2)) 3 0
        (World.init NewSpinLock) = some (3, w1) ∧
      w1.yields = (World.init NewSpinLock).yields + (3 - 1) :=
  SpinWait_evaluates_K_times Env.quiet (World.init NewSpinLock) 3 (by decide)
    (fun n => decide (n < 2)) (fun i hi => decide_eq_true (by omega)) (by decide) 3 (by decide)

/-- C9. Two-tier backoff of `Lock`: if the first `k` attempts find the lock taken and attempt
`k + 1` finds it Free, then `Lock` returns (any fuel above `k` is enough) with the lock Held,
after `k` failed attempts and one successful one, `k` yields and `k / 50` sleeps of 1 ms; after
its first `j` failed attempts it has slept `j / 50` times, so the sleeps come right after the
failed attempts number 50, 100, 150, ...; the counter `freq` is `k % 50` at the end; and with
fewer than 50 failures there is no sleep. -/
theorem Lock_two_tier_backoff (env : Env) (w : World) (k fuel : Nat)
    (hfail : ∀ i, i < k → wordAt env w i ≠ 0) (hok : wordAt env w k = 0) (hfuel : k < fuel) :
    Lock.loop env fuel { w := w, freq := 0 } =
      some { w := { s := { lock := 1 }, yields := w.yields + k,
                    trace := w.trace ++ backoffTrace k ++ [Event.cas true] },
             freq := k % 50 } ∧
    World.Lock env fuel w =
      some { s := { lock := 1 }, yields := w.yields + k,
             trace := w.trace ++ backoffTrace k ++ [Event.cas true] } ∧
    (backoffTrace k ++ [Event.cas true]).count (Event.cas false) = k ∧
    (backoffTrace k ++ [Event.cas true]).count (Event.cas true) = 1 ∧
    (backoffTrace k ++ [Event.cas true]).count Event.gosched = k ∧
    (backoffTrace k ++ [Event.cas true]).count (Event.sleep 1) = k / 50 ∧
    (∀ j, j ≤ k → ∃ rest, backoffTrace k = backoffTrace j ++ rest ∧
      (backoffTrace j).count (Event.cas false) = j ∧
      (backoffTrace j).count (Event.sleep 1) = j / 50) ∧
    (k < 50 → ∀ ms, Event.sleep ms ∉ backoffTrace k ++ [Event.cas true]) := by
  have hloop := Lock.loop_spec env k 0 w fuel hfail hok hfuel
  simp only [Nat.zero_mod, Nat.zero_add] at hloop
  have hsleep : ∀ j, (backoffTrace j).count (Event.sleep 1) = j / 50 := by
    intro j
    simp [backoffTrace, backoffFrom_count_sleep]
  refine ⟨hloop, ?_, ?_, ?_, ?_, ?_, ?_, ?_⟩
  · simp [World.Lock, hloop, backoffTrace]
  · simp [backoffTrace, List.count_append, backoffFrom_count_casFalse]
  · simp [backoffTrace, List.count_append, backoffFrom_count_casTrue]
  · simp [backoffTrace, List.count_append, backoffFrom_count_gosched]
  · simp [List.count_append, hsleep]
  · intro j hj
    refine ⟨backoffFrom j (k - j), ?_, ?_, hsleep j⟩
    · have := backoffFrom_append 0 j (k - j)
      rw [show j + (k - j) = k by omega, Nat.zero_add] at this
      exact this
    · simp [backoffTrace, backoffFrom_count_casFalse]
  · intro hk ms hmem
    have hms : ms = 1 := by
      by_contra hne
      have hall : ∀ c n, Event.sleep ms ∉ backoffFrom c n := by
        intro c n
        induction n generalizing c with
        | zero => simp [backoffFrom]
        | succ n ih =>
          simp only [backoffFrom, List.mem_append, not_or]
          refine ⟨?_, ih (c + 1)⟩
          unfold failedRound
          split <;> simp [hne]
      simp [backoffTrace, hall] at hmem
    subst hms
    have h0 : (backoffTrace k ++ [Event.cas true]).count (Event.sleep 1) = 0 := by
      simp [List.count_append, hsleep, Nat.div_eq_of_lt hk]
    exact (List.count_eq_zero.mp h0) hmem

/-- Witness for C9: a Held lock released during the second yield, `k = 2`. -/
theorem Lock_two_tier_backoff_witness :
    World.Lock (fun n v => if n = 1 then 0 else v) 3 (World.init { lock := 1 }) =
      some { s := { lock := 1 }, yields := (World.init { lock := 1 }).yields + 2,
             trace := (World.init { lock := 1 }).trace ++ backoffTrace 2 ++ [Event.cas true] } :=
  (Lock_two_tier_backoff (fun n v => if n = 1 then 0 else v) (World.init { lock := 1 }) 2 3
    (by decide) (by decide) (by decide)).2.1

/-! ## Theorems: the workers of `testSpinLock` -/

theorem wrapInt64_succ (a : Int) : wrapInt64 (wrapInt64 a + 1) = wrapInt64 (a + 1) := by
  unfold wrapInt64
  omega

theorem wrapInt64_of_lt (a : Nat) (h : a < 9223372036854775808) : wrapInt64 a = a := by
  unfold wrapInt64
  omega

theorem Worker.step_cs (M : Nat) (lock : SpinLock) (sum : Int) (wk : Worker) :
    (wk.inCS = true ∧ (wk.step M lock sum).2.2.inCS = true ∧ (wk.step M lock sum).1 = lock) ∨
    (wk.inCS = false ∧ (wk.step M lock sum).2.2.inCS = false ∧
      (wk.step M lock sum).1 = lock) ∨
    (wk.inCS = false ∧ (wk.step M lock sum).2.2.inCS = true ∧ lock.lock = 0 ∧
      (wk.step M lock sum).1.lock = 1) ∨
    (wk.inCS = true ∧ (wk.step M lock sum).2.2.inCS = false) := by
  obtain ⟨j, pc⟩ := wk
  cases pc with
  | tryLock freq =>
    by_cases h : lock.lock = 0
    · simp [Worker.step, Worker.inCS, TryLock_of_zero lock h, h]
    · simp [Worker.step, Worker.inCS, TryLock_of_ne_zero lock h]
  | gosched freq =>
    by_cases h : freq + 1 = spinLockSleepOneFrequency <;> simp [Worker.step, Worker.inCS, h]
  | sleep => simp [Worker.step, Worker.inCS]
  | load => simp [Worker.step, Worker.inCS]
  | store v => simp [Worker.step, Worker.inCS]
  | unlock =>
    by_cases h : j + 1 < M <;> simp [Worker.step, Worker.inCS, h]
  | done => simp [Worker.step, Worker.inCS]

theorem Worker.step_sum (M : Nat) (lock : SpinLock) (sum : Int) (wk : Worker)
    (hload : ∀ v, wk.pc = Pc.store v → v = sum) :
    ((wk.step M lock sum).2.1 = sum ∧ (wk.step M lock sum).2.2.count = wk.count ∧
      ∀ v, (wk.step M lock sum).2.2.pc = Pc.store v → v = sum) ∨
    (wk.inCS = true ∧ (wk.step M lock sum).2.1 = wrapInt64 (sum + 1) ∧
      (wk.step M lock sum).2.2.count = wk.count + 1 ∧
      ∀ v, (wk.step M lock sum).2.2.pc ≠ Pc.store v) := by
  obtain ⟨j, pc⟩ := wk
  cases pc with
  | tryLock freq =>
    by_cases h : lock.lock = 0
    · simp [Worker.step, Worker.count, TryLock_of_zero lock h]
    · simp [Worker.step, Worker.count, TryLock_of_ne_zero lock h]
  | gosched freq =>
    by_cases h : freq + 1 = spinLockSleepOneFrequency <;> simp [Worker.step, Worker.count, h]
  | sleep => simp [Worker.step, Worker.count]
  | load => simp [Worker.step, Worker.count]
  | store v =>
    have hv : v = sum := hload v rfl
    subst hv
    simp [Worker.step, Worker.count, Worker.inCS]
  | unlock =>
    by_cases h : j + 1 < M <;> simp [Worker.step, Worker.count, h]
  | done =>
    simp [Worker.step, Worker.count]

theorem Worker.step_bound (M : Nat) (lock : SpinLock) (sum : Int) (wk : Worker)
    (hb : (wk.pc = Pc.done → wk.j = M) ∧ (wk.pc ≠ Pc.done → wk.j < M)) :
    ((wk.step M lock sum).2.2.pc = Pc.done → (wk.step M lock sum).2.2.j = M) ∧
    ((wk.step M lock sum).2.2.pc ≠ Pc.done → (wk.step M lock sum).2.2.j < M) := by
  obtain ⟨j, pc⟩ := wk
  cases pc with
  | tryLock freq =>
    by_cases h : lock.lock = 0
    · simpa [Worker.step, TryLock_of_zero lock h] using hb
    · simpa [Worker.step, TryLock_of_ne_zero lock h] using hb
  | gosched freq =>
    by_cases h : freq + 1 = spinLockSleepOneFrequency
    · simpa [Worker.step, h] using hb
    · simpa [Worker.step, h] using hb
  | sleep => simpa [Worker.step] using hb
  | load => simpa [Worker.step] using hb
  | store v => simpa [Worker.step] using hb
  | unlock =>
    have hlt : j < M := by simpa using hb.2
    by_cases h : j + 1 < M
    · simp [Worker.step, h]
    · simp [Worker.step, h]
      omega
  | done => simpa [Worker.step] using hb

theorem totalCount_set (ws : List Worker) (i : Nat) (wk wk1 : Worker)
    (h : ws[i]? = some wk) :
    totalCount (ws.set i wk1) + wk.count = totalCount ws + wk1.count := by
  induction ws generalizing i with
  | nil => simp at h
  | cons a as ih =>
    cases i with
    | zero =>
      simp only [List.getElem?_cons_zero, Option.some.injEq] at h
      subst h
      simp [totalCount]
      omega
    | succ i =>
      simp only [List.getElem?_cons_succ] at h
      have := ih i h
      simp only [totalCount, List.set_cons_succ, List.map_cons, List.sum_cons] at this ⊢
      omega

theorem getElem?_set_cases (ws : List Worker) (i k : Nat) (wk wk1 wk2 : Worker)
    (hi : ws[i]? = some wk) (hk : (ws.set i wk1)[k]? = some wk2) :
    (k = i ∧ wk2 = wk1) ∨ (k ≠ i ∧ ws[k]? = some wk2) := by
  by_cases hki : k = i
  · subst hki
    have hlt : k < ws.length := by
      by_contra hge
      rw [List.getElem?_eq_none (by omega)] at hi
      exact Option.noConfusion hi
    rw [List.getElem?_set_self hlt] at hk
    exact Or.inl ⟨rfl, (Option.some.inj hk).symm⟩
  · rw [List.getElem?_set_ne (fun h => hki h.symm)] at hk
    exact Or.inr ⟨hki, hk⟩

/-- The invariant survives every step of every worker. -/
theorem Inv.preserved_step (M : Nat) (st : System) (i : Nat) (inv : Inv M st) :
    Inv M (System.step M st i) := by
  unfold System.step
  cases hi : st.workers[i]? with
  | none => exact inv
  | some wk =>
    simp only
    have hcs := Worker.step_cs M st.lock st.sum wk
    have hsum := Worker.step_sum M st.lock st.sum wk (fun v hv => inv.loaded i wk v hi hv)
    have hbound := Worker.step_bound M st.lock st.sum wk (inv.bound i wk hi)
    have htot := totalCount_set st.workers i wk (wk.step M st.lock st.sum).2.2 hi
    generalize wk.step M st.lock st.sum = r at hcs hsum hbound htot
    obtain ⟨lock1, sum1, wk1⟩ := r
    simp only at hcs hsum hbound htot
    refine ⟨?_, ?_, ?_, ?_⟩
    · -- excl
      intro k wkk hk hin
      simp only at hk ⊢
      rcases getElem?_set_cases st.workers i k wk wk1 wkk hi hk with ⟨hki, hw⟩ | ⟨hki, hold⟩
      · subst hki hw
        rcases hcs with ⟨hwk, _, hl⟩ | ⟨_, hout, _⟩ | ⟨hwk, _, hfree, hl⟩ | ⟨_, hout⟩
        · obtain ⟨h1, huniq⟩ := inv.excl k wk hi hwk
          refine ⟨by rw [hl]; exact h1, ?_⟩
          intro k1 w1 hk1 hin1
          rcases getElem?_set_cases st.workers k k1 wk wkk w1 hi hk1 with ⟨h, _⟩ | ⟨_, hold1⟩
          · exact h
          · exact huniq k1 w1 hold1 hin1
        · rw [hout] at hin; exact Bool.noConfusion hin
        · refine ⟨hl, ?_⟩
          intro k1 w1 hk1 hin1
          rcases getElem?_set_cases st.workers k k1 wk wkk w1 hi hk1 with ⟨h, _⟩ | ⟨_, hold1⟩
          · exact h
          · have := (inv.excl k1 w1 hold1 hin1).1
            rw [hfree] at this
            exact absurd this (by decide)
        · rw [hout] at hin; exact Bool.noConfusion hin
      · obtain ⟨h1, huniq⟩ := inv.excl k wkk hold hin
        have hwkout : wk.inCS = false := by
          cases hwk : wk.inCS with
          | false => rfl
          | true => exact absurd (huniq i wk hi hwk) (fun h => hki h.symm)
        rcases hcs with ⟨hwk, _, _⟩ | ⟨_, hout, hl⟩ | ⟨_, _, hfree, _⟩ | ⟨hwk, _⟩
        · rw [hwkout] at hwk; exact Bool.noConfusion hwk
        · refine ⟨by rw [hl]; exact h1, ?_⟩
          intro k1 w1 hk1 hin1
          rcases getElem?_set_cases st.workers i k1 wk wk1 w1 hi hk1 with ⟨_, h⟩ | ⟨_, hold1⟩
          · subst h
            rw [hout] at hin1; exact Bool.noConfusion hin1
          · exact huniq k1 w1 hold1 hin1
        · rw [hfree] at h1
          exact absurd h1 (by decide)
        · rw [hwkout] at hwk; exact Bool.noConfusion hwk
    · -- total
      simp only
      rcases hsum with ⟨hs, hc, _⟩ | ⟨_, hs, hc, _⟩
      · rw [hs, inv.total]
        have : totalCount (st.workers.set i wk1) = totalCount st.workers := by omega
        rw [this]
      · rw [hs, inv.total, wrapInt64_succ]
        have : totalCount (st.workers.set i wk1) = totalCount st.workers + 1 := by omega
        rw [this]
        norm_cast
    · -- loaded
      intro k wkk v hk hpc
      simp only at hk ⊢
      rcases getElem?_set_cases st.workers i k wk wk1 wkk hi hk with ⟨_, hw⟩ | ⟨hki, hold⟩
      · subst hw
        rcases hsum with ⟨hs, _, hv⟩ | ⟨_, _, _, hne⟩
        · rw [hs]; exact hv v hpc
        · exact absurd hpc (hne v)
      · rcases hsum with ⟨hs, _, _⟩ | ⟨hwk, _, _, _⟩
        · rw [hs]; exact inv.loaded k wkk v hold hpc
        · have hin : wkk.inCS = true := by simp [Worker.inCS, hpc]
          exact absurd ((inv.excl i wk hi hwk).2 k wkk hold hin) hki
    · -- bound
      intro k wkk hk
      simp only at hk
      rcases getElem?_set_cases st.workers i k wk wk1 wkk hi hk with ⟨_, hw⟩ | ⟨_, hold⟩
      · subst hw; exact hbound
      · exact inv.bound k wkk hold

theorem Inv.preserved_run (M : Nat) (sched : List Nat) : ∀ (st : System), Inv M st →
    Inv M (System.run M st sched) := by
  induction sched with
  | nil => intro st inv; exact inv
  | cons i is ih =>
    intro st inv
    exact ih _ (Inv.preserved_step M st i inv)

theorem Inv.holds_init (N M : Nat) : Inv M (System.init N M) := by
  have hstart : ∀ (k : Nat) (wk : Worker),
      (System.init N M).workers[k]? = some wk → wk = Worker.start M := by
    intro k wk h
    simp only [System.init, List.getElem?_replicate] at h
    split at h
    · exact (Option.some.inj h).symm
    · exact Option.noConfusion h
  have hc0 : (Worker.start M).count = 0 := by
    by_cases hM : 0 < M <;> simp [Worker.start, Worker.count, hM]
  have hin0 : (Worker.start M).inCS = false := by
    by_cases hM : 0 < M <;> simp [Worker.start, Worker.inCS, hM]
  have hpc0 : ∀ v, (Worker.start M).pc ≠ Pc.store v := by
    intro v
    by_cases hM : 0 < M <;> simp [Worker.start, hM]
  have hcount : ∀ n, totalCount (List.replicate n (Worker.start M)) = 0 := by
    intro n
    induction n with
    | zero => rfl
    | succ n ih =>
      simp only [totalCount, List.replicate_succ, List.map_cons, List.sum_cons] at ih ⊢
      rw [ih, hc0]
  refine ⟨?_, ?_, ?_, ?_⟩
  · intro k wk h hin
    rw [hstart k wk h, hin0] at hin
    exact Bool.noConfusion hin
  · simp only [System.init, hcount]
    decide
  · intro k wk v h hpc
    rw [hstart k wk h] at hpc
    exact absurd hpc (hpc0 v)
  · intro k wk h
    rw [hstart k wk h]
    unfold Worker.start
    by_cases hM : 0 < M
    · simp [hM]
    · simp [hM]; omega

theorem System.run_length (M : Nat) (sched : List Nat) : ∀ (st : System),
    (System.run M st sched).workers.length = st.workers.length := by
  induction sched with
  | nil => intro st; rfl
  | cons i is ih =>
    intro st
    have hstep : (System.step M st i).workers.length = st.workers.length := by
      unfold System.step
      split <;> simp
    exact (ih _).trans hstep

theorem totalCount_of_done (M : Nat) (ws : List Worker)
    (h : ∀ wk ∈ ws, wk.pc = Pc.done ∧ wk.j = M) : totalCount ws = ws.length * M := by
  induction ws with
  | nil => simp [totalCount]
  | cons a as ih =>
    have ha := h a (List.mem_cons_self _ _)
    have := ih (fun wk hwk => h wk (List.mem_cons_of_mem _ hwk))
    simp only [totalCount, List.map_cons, List.sum_cons, List.length_cons] at this ⊢
    rw [this]
    simp [Worker.count, ha.1, ha.2, Nat.add_mul, Nat.add_comm]

/-- When all workers are done, `sum` is the wrapped product of their number and `M`. -/
theorem sum_of_allDone (N M : Nat) (sched : List Nat)
    (hdone : (System.run M (System.init N M) sched).allDone = true) :
    (System.run M (System.init N M) sched).sum = wrapInt64 ((N * M : Nat) : Int) := by
  have inv := Inv.preserved_run M sched _ (Inv.holds_init N M)
  have hlen := System.run_length M sched (System.init N M)
  simp only [System.init, List.length_replicate] at hlen
  have hall : ∀ wk ∈ (System.run M (System.init N M) sched).workers,
      wk.pc = Pc.done ∧ wk.j = M := by
    intro wk hwk
    have hpc : wk.pc = Pc.done := by
      have := List.all_eq_true.mp hdone wk hwk
      simpa using this
    obtain ⟨k, hk⟩ := List.getElem?_of_mem hwk
    exact ⟨hpc, (inv.bound k wk hk).1 hpc⟩
  rw [inv.total, totalCount_of_done M _ hall]
  simp only [System.init] at hlen ⊢
  rw [hlen]

theorem System.run_append (M : Nat) (st : System) (a b : List Nat) :
    System.run M st (a ++ b) = System.run M (System.run M st a) b := by
  simp [System.run, List.foldl_append]

theorem System.step_of (M : Nat) (st : System) (i : Nat) (wk : Worker)
    (h : st.workers[i]? = some wk) :
    System.step M st i =
      { lock := (wk.step M st.lock st.sum).1, sum := (wk.step M st.lock st.sum).2.1,
        workers := st.workers.set i (wk.step M st.lock st.sum).2.2 } := by
  simp [System.step, h]

/-- One uncontended round of a worker: `TryLock`, read, write, `Unlock`. -/
theorem System.run_round (M : Nat) (l : SpinLock) (s : Int) (ws : List Worker) (i j : Nat)
    (hl : l.lock = 0) (hi : ws[i]? = some { j := j, pc := Pc.tryLock 0 }) :
    System.run M { lock := l, sum := s, workers := ws } [i, i, i, i] =
      { lock := { lock := 0 }, sum := wrapInt64 (s + 1),
        workers := ws.set i { j := j + 1, pc := if j + 1 < M then Pc.tryLock 0 else Pc.done } } := by
  have hlt : i < ws.length := by
    by_contra hge
    rw [List.getElem?_eq_none (by omega)] at hi
    exact Option.noConfusion hi
  have h1 : System.step M { lock := l, sum := s, workers := ws } i =
      { lock := { lock := 1 }, sum := s, workers := ws.set i { j := j, pc := Pc.load } } := by
    rw [System.step_of M _ i _ hi]
    simp [Worker.step, TryLock_of_zero l hl]
  have h2 : System.step M
      { lock := { lock := 1 }, sum := s, workers := ws.set i { j := j, pc := Pc.load } } i =
      { lock := { lock := 1 }, sum := s, workers := ws.set i { j := j, pc := Pc.store s } } := by
    rw [System.step_of M _ i _ (List.getElem?_set_self hlt)]
    simp [Worker.step, List.set_set]
  have h3 : System.step M
      { lock := { lock := 1 }, sum := s, workers := ws.set i { j := j, pc := Pc.store s } } i =
      { lock := { lock := 1 }, sum := wrapInt64 (s + 1),
        workers := ws.set i { j := j, pc := Pc.unlock } } := by
    rw [System.step_of M _ i _ (List.getElem?_set_self hlt)]
    simp [Worker.step, List.set_set]
  have h4 : System.step M
      { lock := { lock := 1 }, sum := wrapInt64 (s + 1),
        workers := ws.set i { j := j, pc := Pc.unlock } } i =
      { lock := { lock := 0 }, sum := wrapInt64 (s + 1),
        workers := ws.set i
          { j := j + 1, pc := if j + 1 < M then Pc.tryLock 0 else Pc.done } } := by
    rw [System.step_of M _ i _ (List.getElem?_set_self hlt)]
    simp [Worker.step, List.set_set, SpinLock.Unlock, StoreInt32]
  simp only [System.run, List.foldl_cons, List.foldl_nil, h1, h2, h3, h4]

/-- A worker left alone on a Free lock runs its remaining rounds to the end. -/
theorem System.run_worker (M i : Nat) : ∀ (n j : Nat) (l : SpinLock) (s : Int)
    (ws : List Worker), l.lock = 0 → ws[i]? = some { j := j, pc := Pc.tryLock 0 } →
    j + n = M → 0 < n →
    ∃ s1, System.run M { lock := l, sum := s, workers := ws } (List.replicate (4 * n) i) =
      { lock := { lock := 0 }, sum := s1, workers := ws.set i { j := M, pc := Pc.done } } := by
  intro n
  induction n with
  | zero => intro j l s ws _ _ _ h; exact absurd h (by decide)
  | succ n ih =>
    intro j l s ws hl hi hj _
    have hrep : List.replicate (4 * (n + 1)) i = [i, i, i, i] ++ List.replicate (4 * n) i := by
      rw [show 4 * (n + 1) = 4 * n + 1 + 1 + 1 + 1 by omega]
      simp [List.replicate_succ]
    rw [hrep, System.run_append, System.run_round M l s ws i j hl hi]
    cases n with
    | zero =>
      have : ¬ (j + 1 < M) := by omega
      have hM : j + 1 = M := by omega
      refine ⟨wrapInt64 (s + 1), ?_⟩
      simp [System.run, this, hM]
    | succ n =>
      have hlt : j + 1 < M := by omega
      have hlen : i < ws.length := by
        by_contra hge
        rw [List.getElem?_eq_none (by omega)] at hi
        exact Option.noConfusion hi
      simp only [hlt, if_true]
      obtain ⟨s1, hs1⟩ := ih (j + 1) { lock := 0 } (wrapInt64 (s + 1))
        (ws.set i { j := j + 1, pc := Pc.tryLock 0 }) rfl
        (List.getElem?_set_self hlen) (by omega) (Nat.succ_pos n)
      exact ⟨s1, by rw [hs1, List.set_set]⟩

theorem getElem?_append_cons (l1 l2 : List Worker) (x : Worker) :
    (l1 ++ x :: l2)[l1.length]? = some x := by
  induction l1 with
  | nil => simp
  | cons a as ih => simpa using ih

theorem set_append_cons (l1 l2 : List Worker) (x y : Worker) :
    (l1 ++ x :: l2).set l1.length y = l1 ++ y :: l2 := by
  induction l1 with
  | nil => rfl
  | cons a as ih => simp [ih]

/-- Run one after the other, the workers all finish. -/
theorem System.run_sequential (M : Nat) (hM : 0 < M) : ∀ (b a : Nat) (s : Int),
    ∃ s1, System.run M
        { lock := { lock := 0 }, sum := s,
          workers := List.replicate a { j := M, pc := Pc.done } ++
            List.replicate b (Worker.start M) }
        ((List.range' a b).flatMap fun i => List.replicate (4 * M) i) =
      { lock := { lock := 0 }, sum := s1,
        workers := List.replicate (a + b) { j := M, pc := Pc.done } } := by
  intro b
  induction b with
  | zero => intro a s; exact ⟨s, by simp [System.run]⟩
  | succ b ih =>
    intro a s
    have hstart : Worker.start M = { j := 0, pc := Pc.tryLock 0 } := by
      simp [Worker.start, hM]
    have hlen : (List.replicate a ({ j := M, pc := Pc.done } : Worker)).length = a := by simp
    have hget0 := getElem?_append_cons (List.replicate a { j := M, pc := Pc.done })
      (List.replicate b (Worker.start M)) (Worker.start M)
    have hset := set_append_cons (List.replicate a { j := M, pc := Pc.done })
      (List.replicate b (Worker.start M)) (Worker.start M) { j := M, pc := Pc.done }
    rw [hlen] at hget0 hset
    have hget := hget0.trans (congrArg some hstart)
    obtain ⟨s1, hs1⟩ := System.run_worker M a M 0 { lock := 0 } s
      (List.replicate a { j := M, pc := Pc.done } ++
        Worker.start M :: List.replicate b (Worker.start M)) rfl hget (by omega) hM
    rw [hset] at hs1
    have hre : List.replicate a ({ j := M, pc := Pc.done } : Worker) ++
        { j := M, pc := Pc.done } :: List.replicate b (Worker.start M) =
        List.replicate (a + 1) { j := M, pc := Pc.done } ++ List.replicate b (Worker.start M) := by
      rw [List.replicate_succ', List.append_assoc]
      rfl
    rw [hre] at hs1
    obtain ⟨s2, hs2⟩ := ih (a + 1) s1
    refine ⟨s2, ?_⟩
    rw [List.range'_succ, List.flatMap_cons, System.run_append, List.replicate_succ, hs1, hs2]
    rw [show a + 1 + b = a + (b + 1) by omega]

theorem sequentialSchedule_allDone (N M : Nat) :
    (System.run M (System.init N M) (sequentialSchedule N M)).allDone = true := by
  by_cases hM : 0 < M
  · obtain ⟨s1, hs1⟩ := System.run_sequential M hM N 0 0
    simp only [List.replicate_zero, List.nil_append, Nat.zero_add] at hs1
    have hinit : System.init N M =
        { lock := { lock := 0 }, sum := 0, workers := List.replicate N (Worker.start M) } := rfl
    rw [hinit, sequentialSchedule, List.range_eq_range', hs1]
    simp [System.allDone]
  · have h0 : M = 0 := by omega
    subst h0
    have hsched : sequentialSchedule N 0 = [] := by
      simp [sequentialSchedule]
    rw [hsched]
    simp [System.run, System.init, System.allDone, Worker.start]

/-- C10, as stated, fails on the `int64` counter: with `N = 2` workers and `M = 2^62` rounds
each, both within the range of a Go `int`, the sequential schedule lets every worker finish, and
`sum` has wrapped around to `-2^63` instead of holding `N * M = 2^63`. -/
theorem counter_wraps_at_int64 :
    ¬ (∀ sched : List Nat,
        (System.run 4611686018427387904 (System.init 2 4611686018427387904) sched).allDone
          = true →
        (System.run 4611686018427387904 (System.init 2 4611686018427387904) sched).sum
          = ((2 * 4611686018427387904 : Nat) : Int)) := by
  intro h
  have hdone := sequentialSchedule_allDone 2 4611686018427387904
  have h1 := h _ hdone
  have h2 := sum_of_allDone 2 4611686018427387904 _ hdone
  rw [h2] at h1
  revert h1
  unfold wrapInt64
  omega

/-- C10, amended. For all `N` and `M` whose product fits the `int64` counter
(`N * M <= 2^63 - 1`), under every interleaving of the workers in which they all run their
`M` rounds of `Lock`, `sum += 1`, `Unlock` to the end, the final value of `sum` is exactly
`N * M`; and there is such an interleaving (the workers running one after the other). -/
theorem workers_sum_exact (N M : Nat) (hrange : N * M < 9223372036854775808) :
    (∀ sched : List Nat, (System.run M (System.init N M) sched).allDone = true →
      (System.run M (System.init N M) sched).sum = ((N * M : Nat) : Int)) ∧
    (System.run M (System.init N M) (sequentialSchedule N M)).allDone = true := by
  refine ⟨?_, sequentialSchedule_allDone N M⟩
  intro sched hdone
  rw [sum_of_allDone N M sched hdone, wrapInt64_of_lt _ hrange]

set_option maxRecDepth 100000 in
/-- Witness for C10: two workers, two rounds each, under a schedule in which the second worker
fails attempts while the first holds the lock, and the other way round. -/
theorem workers_sum_exact_witness :
    2 * 2 < 9223372036854775808 ∧
    (System.run 2 (System.init 2 2)
      [0, 1, 0, 1, 1, 0, 0, 1, 1, 0, 1, 1, 1, 0, 0, 0, 0, 0, 0, 1, 1, 0, 1, 1, 1, 1]).allDone
        = true ∧
    (System.run 2 (System.init 2 2)
      [0, 1, 0, 1, 1, 0, 0, 1, 1, 0, 1, 1, 1, 0, 0, 0, 0, 0, 0, 1, 1, 0, 1, 1, 1, 1]).sum
        = ((2 * 2 : Nat) : Int) :=
  ⟨by decide, by decide, (workers_sum_exact 2 2 (by decide)).1 _ (by decide)⟩

/-! ## Theorems: the three loops compared, and the counter `freq` -/

/-- The body of `LockWithMaxAttempts` acts as the body of `Lock`: the extra test compares a
counter that is 50 with 200. -/
theorem LockWithMaxAttempts.iteration_as_lock (env : Env) (f : Frame) :
    LockWithMaxAttempts.iteration env f =
      match Lock.iteration env f with
      | Loop.next f1 => Loop.next f1
      | Loop.done f1 => Loop.done (true, f1) := by
  unfold LockWithMaxAttempts.iteration Lock.iteration
  by_cases ht : f.w.TryLock.1 = true
  · simp [ht]
  · by_cases hc : f.freq + 1 = spinLockSleepOneFrequency
    · have h200 : ¬ (spinLockSleepOneFrequency = spinLockMaxAttempts) := by decide
      simp [ht, hc, h200]
    · simp [ht, hc]

theorem LockWithMaxAttempts.loop_as_lock (env : Env) : ∀ (fuel : Nat) (f : Frame),
    LockWithMaxAttempts.loop env fuel f =
      (Lock.loop env fuel f).map fun f1 => (true, f1) := by
  intro fuel
  induction fuel with
  | zero => intro f; rfl
  | succ fuel ih =>
    intro f
    simp only [LockWithMaxAttempts.loop, Lock.loop, LockWithMaxAttempts.iteration_as_lock]
    cases Lock.iteration env f with
    | next f1 => simpa using ih f1
    | done f1 => simp

theorem LockWithMaxAttempts.frameAt_as_lock (env : Env) : ∀ (n : Nat) (f : Frame),
    LockWithMaxAttempts.frameAt env n f = Lock.frameAt env n f := by
  intro n
  induction n with
  | zero => intro f; rfl
  | succ n ih =>
    intro f
    simp only [LockWithMaxAttempts.frameAt, Lock.frameAt,
      LockWithMaxAttempts.iteration_as_lock]
    cases Lock.iteration env f with
    | next f1 => simpa using ih f1
    | done f1 => simp

/-- The body of `SpinWait` with the predicate `!s.TryLock()` acts as the body of `Lock`. -/
theorem SpinWait.iteration_tryLockFails (env : Env) (f : Frame) :
    SpinWait.iteration env tryLockFails () f =
      match Lock.iteration env f with
      | Loop.next f1 => Loop.next ((), f1)
      | Loop.done f1 => Loop.done ((), f1) := by
  unfold SpinWait.iteration Lock.iteration tryLockFails
  by_cases ht : f.w.TryLock.1 = true
  · simp [ht]
  · by_cases hc : f.freq + 1 = spinLockSleepOneFrequency
    · simp [ht, hc]
    · simp [ht, hc]

theorem SpinWait.loop_tryLockFails (env : Env) : ∀ (fuel : Nat) (f : Frame),
    SpinWait.loop env tryLockFails fuel () f =
      (Lock.loop env fuel f).map fun f1 => ((), f1) := by
  intro fuel
  induction fuel with
  | zero => intro f; rfl
  | succ fuel ih =>
    intro f
    simp only [SpinWait.loop, Lock.loop, SpinWait.iteration_tryLockFails]
    cases Lock.iteration env f with
    | next f1 => simpa using ih f1
    | done f1 => simp

/-- While the attempts fail, the loop of `Lock` keeps running, and its frame after `n` failed
attempts is known. -/
theorem Lock.frameAt_of_taken (env : Env) : ∀ (n c : Nat) (w : World),
    (∀ i, i < n → wordAt env w i ≠ 0) →
    Lock.frameAt env n { w := w, freq := c % 50 } =
      some { w := { s := { lock := wordAt env w n }, yields := w.yields + n,
                    trace := w.trace ++ backoffFrom c n },
             freq := (c + n) % 50 } := by
  intro n
  induction n with
  | zero =>
    intro c w _
    simp [Lock.frameAt, wordAt, backoffFrom]
  | succ n ih =>
    intro c w hfail
    have h0 : w.s.lock ≠ 0 := by simpa [wordAt] using hfail 0 (Nat.succ_pos n)
    have hs : ∀ m, wordAt env (afterFailure env w c).w m = wordAt env w (m + 1) :=
      wordAt_shift env w _ rfl rfl
    have hfail1 : ∀ i, i < n → wordAt env (afterFailure env w c).w i ≠ 0 := by
      intro i hi
      rw [hs]
      exact hfail (i + 1) (by omega)
    have key := ih (c + 1) (afterFailure env w c).w hfail1
    simp only [Lock.frameAt, Lock.iteration_taken env w c h0]
    have hf : (afterFailure env w c) =
        { w := (afterFailure env w c).w, freq := (c + 1) % 50 } := rfl
    rw [hf, key, hs]
    simp [afterFailure, backoffFrom, Nat.add_assoc, Nat.add_comm 1 n]

/-- At every evaluation of the condition of the loop of `Lock`, `freq` is the number of failed
attempts so far modulo 50. -/
theorem Lock.frameAt_freq (env : Env) : ∀ (n c : Nat) (w : World) (f : Frame),
    Lock.frameAt env n { w := w, freq := c % 50 } = some f → f.freq = (c + n) % 50 := by
  intro n
  induction n with
  | zero =>
    intro c w f h
    simp only [Lock.frameAt, Option.some.injEq] at h
    subst h
    rfl
  | succ n ih =>
    intro c w f h
    by_cases h0 : w.s.lock = 0
    · simp [Lock.frameAt, Lock.iteration_free env w _ h0] at h
    · simp only [Lock.frameAt, Lock.iteration_taken env w c h0] at h
      have := ih (c + 1) (afterFailure env w c).w f h
      rw [this]
      congr 1
      omega

/-- At every evaluation of `condition()` in the loop of `SpinWait`, `freq` is the number of
earlier evaluations (all of which returned `true`) modulo 50. -/
theorem SpinWait.frameAt_counter {σ : Type} (env : Env) (condition : Predicate σ) :
    ∀ (n k : Nat) (c : σ) (f : Frame) (r : σ × Frame), f.freq = k % 50 →
    SpinWait.frameAt env condition n c f = some r → r.2.freq = (k + n) % 50 := by
  intro n
  induction n with
  | zero =>
    intro k c f r hf h
    simp only [SpinWait.frameAt, Option.some.injEq] at h
    subst h
    simpa using hf
  | succ n ih =>
    intro k c f r hf h
    have hk : k % 50 < 50 := Nat.mod_lt _ (by decide)
    simp only [SpinWait.frameAt, SpinWait.iteration, spinLockSleepOneFrequency] at h
    by_cases hc : (condition c f.w).1 = true
    · by_cases h50 : f.freq + 1 = 50
      · simp only [hc, h50, if_true] at h
        have := ih (k + 1) _ _ r (by simp; omega) h
        rw [this]
        congr 1
        omega
      · simp only [hc, h50, if_true, if_false] at h
        have := ih (k + 1) _ _ r (by simp; omega) h
        rw [this]
        congr 1
        omega
    · simp [hc] at h

theorem SpinWait.frameAt_of_tryLockFails (env : Env) : ∀ (n : Nat) (f : Frame),
    SpinWait.frameAt env tryLockFails n () f =
      (Lock.frameAt env n f).map fun f1 => ((), f1) := by
  intro n
  induction n with
  | zero => intro f; rfl
  | succ n ih =>
    intro f
    simp only [SpinWait.frameAt, Lock.frameAt, SpinWait.iteration_tryLockFails]
    cases Lock.iteration env f with
    | next f1 => simpa using ih f1
    | done f1 => simp

/-- A loop that is still running at its evaluation number `n + 1` has not returned within `n`
evaluations. -/
theorem Lock.loop_of_frameAt (env : Env) : ∀ (n : Nat) (f f1 : Frame),
    Lock.frameAt env n f = some f1 → Lock.loop env n f = none := by
  intro n
  induction n with
  | zero => intro f f1 _; rfl
  | succ n ih =>
    intro f f1 h
    simp only [Lock.frameAt] at h
    simp only [Lock.loop]
    cases hit : Lock.iteration env f with
    | next f2 =>
      rw [hit] at h
      exact ih f2 f1 h
    | done f2 =>
      rw [hit] at h
      exact Option.noConfusion h

theorem wordAt_quiet (w : World) (i : Nat) : wordAt Env.quiet w i = w.s.lock := by
  induction i with
  | zero => rfl
  | succ i ih => simpa [wordAt, Env.quiet] using ih

theorem wordAt_releasedAt_le (s : SpinLock) (n : Nat) : ∀ i, i ≤ n →
    wordAt (releasedAt n) (World.init s) i = s.lock := by
  intro i
  induction i with
  | zero => intro _; rfl
  | succ i ih =>
    intro hi
    have hne : ¬ (i = n) := by omega
    simp only [wordAt, releasedAt, World.init, Nat.zero_add, hne, if_false]
    exact ih (by omega)

theorem wordAt_releasedAt_succ (s : SpinLock) (n : Nat) :
    wordAt (releasedAt n) (World.init s) (n + 1) = 0 := by
  simp [wordAt, releasedAt, World.init]

theorem backoffTrace_succ (k : Nat) :
    backoffTrace (k + 1) = backoffTrace k ++ failedRound (k + 1) := by
  have := backoffFrom_append 0 k 1
  simpa [backoffTrace, backoffFrom] using this

/-- The round of failed attempt number `j`, a multiple of 50, inside the trace of `k >= j`
failed attempts. -/
theorem backoffTrace_threshold_round (k j : Nat) (hj : 0 < j) (hjk : j ≤ k) (h50 : j % 50 = 0) :
    backoffTrace k = backoffTrace (j - 1) ++
      [Event.cas false, Event.gosched, Event.sleep 1] ++ backoffFrom j (k - j) := by
  have h1 := backoffFrom_append 0 j (k - j)
  rw [show j + (k - j) = k by omega, Nat.zero_add] at h1
  have h2 := backoffTrace_succ (j - 1)
  rw [show j - 1 + 1 = j by omega] at h2
  have h3 : failedRound j = [Event.cas false, Event.gosched, Event.sleep 1] := by
    simp [failedRound, h50]
  rw [h3] at h2
  unfold backoffTrace at h2 ⊢
  rw [h1, h2]

/-! ## Theorems: the claims about the cap, the refinements and misuse -/

/-- C11, as stated, fails: on a Held lock that nobody releases, `LockWithMaxAttempts` does not
return `false` when its counter first reaches the sleep threshold. After exactly 50 failed
attempts the loop is still running, it has just slept (the last three events are the failed
compare-and-swap, the yield and the sleep) and `freq` is back to 0; and no amount of fuel
makes the call return `false`. -/
theorem cap_does_not_fire_at_threshold :
    LockWithMaxAttempts.frameAt Env.quiet 50 { w := World.init { lock := 1 }, freq := 0 } =
      some { w := { s := { lock := 1 }, yields := 50,
                    trace := backoffTrace 49 ++
                      [Event.cas false, Event.gosched, Event.sleep 1] },
             freq := 0 } ∧
    World.LockWithMaxAttempts Env.quiet 50 (World.init { lock := 1 }) = none ∧
    ¬ ∃ fuel w1, World.LockWithMaxAttempts Env.quiet fuel (World.init { lock := 1 }) =
        some (false, w1) := by
  have hw : ∀ i, wordAt Env.quiet (World.init { lock := 1 }) i ≠ 0 := by
    intro i
    rw [wordAt_quiet]
    decide
  have hfr := Lock.frameAt_of_taken Env.quiet 50 0 (World.init { lock := 1 })
    (fun i _ => hw i)
  have htr : backoffFrom 0 50 =
      backoffTrace 49 ++ [Event.cas false, Event.gosched, Event.sleep 1] := by
    have := backoffTrace_threshold_round 50 50 (by decide) (by decide) (by decide)
    simpa [backoffTrace, backoffFrom] using this
  refine ⟨?_, ?_, ?_⟩
  · rw [LockWithMaxAttempts.frameAt_as_lock]
    simp only [Nat.zero_mod] at hfr
    rw [hfr, wordAt_quiet, htr]
    simp [World.init]
  · simp only [Nat.zero_mod] at hfr
    simp [World.LockWithMaxAttempts, LockWithMaxAttempts.loop_as_lock,
      Lock.loop_of_frameAt Env.quiet 50 _ _ hfr]
  · rintro ⟨fuel, w1, h⟩
    simp [World.LockWithMaxAttempts, LockWithMaxAttempts.loop_as_lock] at h

/-- C11, amended. In `LockWithMaxAttempts`, on a lock that the first 50 attempts find taken:
after 49 failed attempts the call has not slept and `freq` is 49; the 50th failed attempt
brings `freq` to the sleep threshold, where the cap is compared with a counter that is 50,
and the call yields, sleeps 1 ms, resets `freq` to 0 and goes on polling. It has not returned
after these 50 attempts. -/
theorem cap_tested_at_first_threshold (env : Env) (w : World)
    (hheld : ∀ i, i < 50 → wordAt env w i ≠ 0) :
    LockWithMaxAttempts.frameAt env 49 { w := w, freq := 0 } =
      some { w := { s := { lock := wordAt env w 49 }, yields := w.yields + 49,
                    trace := w.trace ++ backoffTrace 49 },
             freq := 49 } ∧
    (∀ ms, Event.sleep ms ∉ backoffTrace 49) ∧
    LockWithMaxAttempts.frameAt env 50 { w := w, freq := 0 } =
      some { w := { s := { lock := wordAt env w 50 }, yields := w.yields + 50,
                    trace := w.trace ++ backoffTrace 49 ++
                      [Event.cas false, Event.gosched, Event.sleep 1] },
             freq := 0 } ∧
    World.LockWithMaxAttempts env 50 w = none := by
  have h49 := Lock.frameAt_of_taken env 49 0 w (fun i hi => hheld i (by omega))
  have h50 := Lock.frameAt_of_taken env 50 0 w hheld
  simp only [Nat.zero_mod] at h49 h50
  have htr : backoffFrom 0 50 =
      backoffTrace 49 ++ [Event.cas false, Event.gosched, Event.sleep 1] := by
    have := backoffTrace_threshold_round 50 50 (by decide) (by decide) (by decide)
    simpa [backoffTrace, backoffFrom] using this
  refine ⟨?_, ?_, ?_, ?_⟩
  · rw [LockWithMaxAttempts.frameAt_as_lock, h49]
    rfl
  · intro ms hmem
    have hall : ∀ e ∈ backoffTrace 49, e = Event.cas false ∨ e = Event.gosched := by decide
    rcases hall _ hmem with h | h <;> exact Event.noConfusion h
  · rw [LockWithMaxAttempts.frameAt_as_lock, h50, htr]
    simp
  · simp [World.LockWithMaxAttempts, LockWithMaxAttempts.loop_as_lock,
      Lock.loop_of_frameAt env 50 _ _ h50]

/-- Witness for C11: a Held lock that nobody releases. -/
theorem cap_tested_at_first_threshold_witness :
    World.LockWithMaxAttempts Env.quiet 50 (World.init { lock := 1 }) = none :=
  (cap_tested_at_first_threshold Env.quiet (World.init { lock := 1 })
    (fun i _ => by rw [wordAt_quiet]; decide)).2.2.2

/-- C12. `LockWithMaxAttempts` does what `Lock` does: whenever the lock is obtained (the first
`k` attempts fail and attempt `k + 1` succeeds), it returns `true` in the very world in which
`Lock` returns, with the same attempts, yields and sleeps in the trace and the lock Held; and
for every amount of fuel its result is the result of `Lock` paired with `true`. -/
theorem LockWithMaxAttempts_as_Lock (env : Env) (w : World) (k fuel : Nat)
    (hfail : ∀ i, i < k → wordAt env w i ≠ 0) (hok : wordAt env w k = 0) (hfuel : k < fuel) :
    World.LockWithMaxAttempts env fuel w =
      some (true, { s := { lock := 1 }, yields := w.yields + k,
                    trace := w.trace ++ backoffTrace k ++ [Event.cas true] }) ∧
    World.Lock env fuel w =
      some { s := { lock := 1 }, yields := w.yields + k,
             trace := w.trace ++ backoffTrace k ++ [Event.cas true] } ∧
    SpinLock.Held { lock := 1 } ∧
    ∀ fuel2, World.LockWithMaxAttempts env fuel2 w =
      (World.Lock env fuel2 w).map fun w1 => (true, w1) := by
  have hloop := Lock.loop_spec env k 0 w fuel hfail hok hfuel
  simp only [Nat.zero_mod, Nat.zero_add] at hloop
  refine ⟨?_, ?_, rfl, ?_⟩
  · simp [World.LockWithMaxAttempts, LockWithMaxAttempts.loop_as_lock, hloop, backoffTrace]
  · simp [World.Lock, hloop, backoffTrace]
  · intro fuel2
    simp only [World.LockWithMaxAttempts, World.Lock, LockWithMaxAttempts.loop_as_lock]
    cases Lock.loop env fuel2 { w := w, freq := 0 } <;> rfl

/-- Witness for C12: a Held lock released during the third yield. -/
theorem LockWithMaxAttempts_as_Lock_witness :
    World.LockWithMaxAttempts (releasedAt 2) 4 (World.init { lock := 1 }) =
      some (true, { s := { lock := 1 }, yields := (World.init { lock := 1 }).yields + 3,
                    trace := (World.init { lock := 1 }).trace ++ backoffTrace 3 ++
                      [Event.cas true] }) :=
  (LockWithMaxAttempts_as_Lock (releasedAt 2) (World.init { lock := 1 }) 3 4
    (by decide) (by decide) (by decide)).1

/-- C13. `Lock` on `s` and `SpinWait` with the predicate `!s.TryLock()` are the same loop: for
every lock, every interference and every amount of fuel, one returns exactly when the other
does, and then in the same world: same lock word, same trace of attempts, yields and
sleeps. -/
theorem Lock_as_SpinWait (env : Env) (fuel : Nat) (w : World) :
    (SpinWait env tryLockFails fuel () w).map Prod.snd = World.Lock env fuel w ∧
    ∀ n, (SpinWait.frameAt env tryLockFails n () { w := w, freq := 0 }).map Prod.snd =
      Lock.frameAt env n { w := w, freq := 0 } := by
  constructor
  · simp only [SpinWait, World.Lock, SpinWait.loop_tryLockFails]
    cases Lock.loop env fuel { w := w, freq := 0 } <;> rfl
  · intro n
    rw [SpinWait.frameAt_of_tryLockFails]
    cases Lock.frameAt env n { w := w, freq := 0 } <;> rfl

/-- C14, as stated, fails: a lock that is released only during the 50th yield of the caller.
`Lock` returns after 50 failed attempts; on the 50th it has yielded and then slept (the round
is failed compare-and-swap, yield, sleep), so it has yielded 50 times and slept once: yields
plus sleeps is 51, not 50. -/
theorem lock_yields_before_sleeping :
    ∃ w1, World.Lock (releasedAt 49) 51 (World.init { lock := 1 }) = some w1 ∧
      w1.trace = backoffTrace 49 ++
        [Event.cas false, Event.gosched, Event.sleep 1, Event.cas true] ∧
      w1.trace.count (Event.cas false) = 50 ∧
      w1.trace.count Event.gosched = 50 ∧
      w1.trace.count (Event.sleep 1) = 1 ∧
      w1.trace.count Event.gosched + w1.trace.count (Event.sleep 1) ≠ 50 := by
  have hloop := Lock.loop_spec (releasedAt 49) 50 0 (World.init { lock := 1 }) 51
    (fun i hi => by rw [wordAt_releasedAt_le _ _ i (by omega)]; decide)
    (wordAt_releasedAt_succ _ 49) (by decide)
  have htr : backoffFrom 0 50 =
      backoffTrace 49 ++ [Event.cas false, Event.gosched, Event.sleep 1] := by
    have := backoffTrace_threshold_round 50 50 (by decide) (by decide) (by decide)
    simpa [backoffTrace, backoffFrom] using this
  have hc1 := backoffFrom_count_casFalse 0 50
  have hc2 := backoffFrom_count_gosched 0 50
  have hc3 := backoffFrom_count_sleep 0 50
  rw [htr] at hc1 hc2 hc3
  refine ⟨_, by simp only [World.Lock, hloop]; rfl, ?_, ?_, ?_, ?_, ?_⟩
  · simp [World.init, htr]
  · simp only [World.init, List.nil_append, htr, List.count_append] at hc1 ⊢
    simp only [List.count_cons, List.count_nil] at hc1 ⊢
    simp at hc1 ⊢
    omega
  · simp only [World.init, List.nil_append, htr, List.count_append] at hc2 ⊢
    simp only [List.count_cons, List.count_nil] at hc2 ⊢
    simp at hc2 ⊢
    omega
  · simp only [World.init, List.nil_append, htr, List.count_append] at hc3 ⊢
    simp only [List.count_cons, List.count_nil] at hc3 ⊢
    simp at hc3 ⊢
    omega
  · simp only [World.init, List.nil_append, htr, List.count_append] at hc2 hc3 ⊢
    simp only [List.count_cons, List.count_nil] at hc2 hc3 ⊢
    simp at hc2 hc3 ⊢
    omega

/-- C14, amended. On the failed attempt that brings the counter of `Lock` to the threshold of
50, `Lock` yields and then also sleeps 1 ms: a yield is issued for every failed attempt. If
the first `k` attempts fail and attempt `k + 1` succeeds, `Lock` returns having yielded `k`
times and slept `k / 50` times, so yields plus sleeps is `k + k / 50`; and the events of every
failed attempt whose number is a multiple of 50 are the failed compare-and-swap, the yield,
the sleep, in this order. -/
theorem Lock_yields_then_sleeps (env : Env) (w : World) (k fuel : Nat)
    (hfail : ∀ i, i < k → wordAt env w i ≠ 0) (hok : wordAt env w k = 0) (hfuel : k < fuel) :
    ∃ evs, World.Lock env fuel w =
        some { s := { lock := 1 }, yields := w.yields + k, trace := w.trace ++ evs } ∧
      evs.count (Event.cas false) = k ∧
      evs.count Event.gosched = k ∧
      evs.count (Event.sleep 1) = k / 50 ∧
      evs.count Event.gosched + evs.count (Event.sleep 1) = k + k / 50 ∧
      ∀ j, 0 < j → j ≤ k → j % 50 = 0 → ∃ rest,
        evs = backoffTrace (j - 1) ++ [Event.cas false, Event.gosched, Event.sleep 1] ++ rest := by
  have hloop := Lock.loop_spec env k 0 w fuel hfail hok hfuel
  simp only [Nat.zero_mod, Nat.zero_add] at hloop
  have hg : (backoffTrace k ++ [Event.cas true]).count Event.gosched = k := by
    simp [backoffTrace, List.count_append, backoffFrom_count_gosched]
  have hsl : (backoffTrace k ++ [Event.cas true]).count (Event.sleep 1) = k / 50 := by
    simp [backoffTrace, List.count_append, backoffFrom_count_sleep]
  refine ⟨backoffTrace k ++ [Event.cas true], ?_, ?_, hg, hsl, by rw [hg, hsl], ?_⟩
  · simp [World.Lock, hloop, backoffTrace]
  · simp [backoffTrace, List.count_append, backoffFrom_count_casFalse]
  · intro j hj hjk h50
    refine ⟨backoffFrom j (k - j) ++ [Event.cas true], ?_⟩
    rw [backoffTrace_threshold_round k j hj hjk h50]
    simp

/-- Witness for C14: a Held lock released during the second yield, `k = 2`. -/
theorem Lock_yields_then_sleeps_witness :
    ∃ evs, World.Lock (releasedAt 1) 3 (World.init { lock := 1 }) =
        some { s := { lock := 1 }, yields := (World.init { lock := 1 }).yields + 2,
               trace := (World.init { lock := 1 }).trace ++ evs } ∧
      evs.count (Event.cas false) = 2 ∧
      evs.count Event.gosched = 2 ∧
      evs.count (Event.sleep 1) = 2 / 50 ∧
      evs.count Event.gosched + evs.count (Event.sleep 1) = 2 + 2 / 50 ∧
      ∀ j, 0 < j → j ≤ 2 → j % 50 = 0 → ∃ rest,
        evs = backoffTrace (j - 1) ++ [Event.cas false, Event.gosched, Event.sleep 1] ++ rest :=
  Lock_yields_then_sleeps (releasedAt 1) (World.init { lock := 1 }) 2 3
    (by decide) (by decide) (by decide)

/-- C15. Misuse is not detected and breaks mutual exclusion: on a new lock, caller 0 acquires
with `TryLock`, caller 2, who holds nothing, calls `Unlock`, which completes like any other
`Unlock` and frees the lock, and then the `TryLock` of caller 1 returns `true` although
caller 0 has not released: callers 0 and 1 both hold an acquisition. -/
theorem misuse_breaks_mutual_exclusion :
    runBy NewSpinLock [(0, Op.tryLock), (2, Op.unlock), (1, Op.tryLock)] =
      [(0, some true), (2, none), (1, some true)] ∧
    holdersAfter NewSpinLock [] [(0, Op.tryLock)] = [0] ∧
    execOps NewSpinLock [Op.tryLock, Op.unlock] = { lock := 0 } ∧
    (World.Unlock { s := { lock := 1 }, yields := 0, trace := [Event.cas true] }).s.Free ∧
    holdersAfter NewSpinLock [] [(0, Op.tryLock), (2, Op.unlock), (1, Op.tryLock)] = [0, 1] ∧
    successes (runOps NewSpinLock [Op.tryLock, Op.unlock, Op.tryLock]) = 2 := by
  refine ⟨by decide, by decide, by decide, by decide, by decide, by decide⟩

/-- C16. `LockWithMaxAttempts` never returns `false`: the branch `return false` sits under
`freq == spinLockSleepOneFrequency` and `freq == spinLockMaxAttempts`, that is under 50 = 200,
so no pass through the loop leaves it with `false`; every call that returns, returns `true`
with the lock Held; and on a lock that no attempt finds Free the call has not returned after
any number of evaluations of the loop condition. -/
theorem LockWithMaxAttempts_never_false (env : Env) (w : World) :
    spinLockSleepOneFrequency ≠ spinLockMaxAttempts ∧
    (∀ f r, LockWithMaxAttempts.iteration env f ≠ Loop.done (false, r)) ∧
    (∀ fuel w1, World.LockWithMaxAttempts env fuel w ≠ some (false, w1)) ∧
    (∀ fuel b w1, World.LockWithMaxAttempts env fuel w = some (b, w1) →
      b = true ∧ w1.s.Held) ∧
    ((∀ i, wordAt env w i ≠ 0) → ∀ fuel, World.LockWithMaxAttempts env fuel w = none) := by
  have hnf : ∀ fuel w1, World.LockWithMaxAttempts env fuel w ≠ some (false, w1) := by
    intro fuel w1 h
    simp [World.LockWithMaxAttempts, LockWithMaxAttempts.loop_as_lock] at h
  refine ⟨by decide, ?_, hnf, ?_, ?_⟩
  · intro f r h
    rw [LockWithMaxAttempts.iteration_as_lock] at h
    cases hit : Lock.iteration env f with
    | next f1 => rw [hit] at h; exact Loop.noConfusion h
    | done f1 =>
      rw [hit] at h
      simp at h
  · intro fuel b w1 h
    cases b with
    | false => exact absurd h (hnf fuel w1)
    | true =>
      refine ⟨rfl, ?_⟩
      simp only [World.LockWithMaxAttempts, Option.map_eq_some', Prod.mk.injEq] at h
      obtain ⟨⟨b, f1⟩, hloop, hb, hw⟩ := h
      simp only at hb hw
      subst hb hw
      exact (LockWithMaxAttempts.loop_true env fuel _ f1 hloop).1
  · intro hheld fuel
    simp [World.LockWithMaxAttempts,
      LockWithMaxAttempts.loop_of_held env fuel { w := w, freq := 0 } hheld]

/-- Witness for C16: a Held lock that nobody releases, after 300 evaluations, and a Held lock
released during the first yield. -/
theorem LockWithMaxAttempts_never_false_witness :
    World.LockWithMaxAttempts Env.quiet 300 (World.init { lock := 1 }) = none ∧
    (true = true ∧ SpinLock.Held { lock := 1 }) :=
  ⟨(LockWithMaxAttempts_never_false Env.quiet (World.init { lock := 1 })).2.2.2.2
      (fun i => by rw [wordAt_quiet]; decide) 300,
   (LockWithMaxAttempts_never_false (releasedAt 0) (World.init { lock := 1 })).2.2.2.1 2 true
      { s := { lock := 1 }, yields := 1,
        trace := [Event.cas false, Event.gosched, Event.cas true] } (by decide)⟩

/-- C17. The backoff counter is bounded. In `Lock`, `LockWithMaxAttempts` and `SpinWait`, at
evaluation number `n + 1` of the loop condition (after `n` failed attempts, for whatever `n`
the loop gets that far) `freq` is `n % 50`, so it is below 50 and the `freq++` that follows
gives at most 50; and on a lock that the first `n` attempts find taken the loops do get that
far. -/
theorem freq_bounded (env : Env) (w : World) (n : Nat) :
    (∀ f, Lock.frameAt env n { w := w, freq := 0 } = some f →
      f.freq = n % 50 ∧ f.freq < 50 ∧ f.freq + 1 ≤ spinLockSleepOneFrequency) ∧
    (∀ f, LockWithMaxAttempts.frameAt env n { w := w, freq := 0 } = some f →
      f.freq = n % 50 ∧ f.freq < 50 ∧ f.freq + 1 ≤ spinLockSleepOneFrequency) ∧
    (∀ (σ : Type) (condition : Predicate σ) (c : σ) (r : σ × Frame),
      SpinWait.frameAt env condition n c { w := w, freq := 0 } = some r →
      r.2.freq = n % 50 ∧ r.2.freq < 50 ∧ r.2.freq + 1 ≤ spinLockSleepOneFrequency) ∧
    ((∀ i, i < n → wordAt env w i ≠ 0) →
      ∃ f, Lock.frameAt env n { w := w, freq := 0 } = some f ∧
        LockWithMaxAttempts.frameAt env n { w := w, freq := 0 } = some f ∧
        SpinWait.frameAt env tryLockFails n () { w := w, freq := 0 } = some ((), f)) := by
  have hlt : n % 50 < 50 := Nat.mod_lt _ (by decide)
  have hlock : ∀ f, Lock.frameAt env n { w := w, freq := 0 } = some f →
      f.freq = n % 50 ∧ f.freq < 50 ∧ f.freq + 1 ≤ spinLockSleepOneFrequency := by
    intro f h
    have := Lock.frameAt_freq env n 0 w f h
    simp only [Nat.zero_add] at this
    rw [this]
    exact ⟨rfl, hlt, by simp only [spinLockSleepOneFrequency]; omega⟩
  refine ⟨hlock, ?_, ?_, ?_⟩
  · intro f h
    rw [LockWithMaxAttempts.frameAt_as_lock] at h
    exact hlock f h
  · intro σ condition c r h
    have := SpinWait.frameAt_counter env condition n 0 c { w := w, freq := 0 } r rfl h
    simp only [Nat.zero_add] at this
    rw [this]
    exact ⟨rfl, hlt, by simp only [spinLockSleepOneFrequency]; omega⟩
  · intro hheld
    have h := Lock.frameAt_of_taken env n 0 w hheld
    simp only [Nat.zero_mod] at h
    refine ⟨_, h, ?_, ?_⟩
    · rw [LockWithMaxAttempts.frameAt_as_lock, h]
    · rw [SpinWait.frameAt_of_tryLockFails, h]
      rfl

/-- Witness for C17: a Held lock that nobody releases, after 120 failed attempts. -/
theorem freq_bounded_witness :
    ∃ f, Lock.frameAt Env.quiet 120 { w := World.init { lock := 1 }, freq := 0 } = some f ∧
      f.freq = 120 % 50 ∧ f.freq < 50 ∧ f.freq + 1 ≤ spinLockSleepOneFrequency :=
  match (freq_bounded Env.quiet (World.init { lock := 1 }) 120).2.2.2
      (fun i _ => by rw [wordAt_quiet]; decide) with
  | ⟨f, hf, _⟩ => ⟨f, hf, (freq_bounded Env.quiet (World.init { lock := 1 }) 120).1 f hf⟩

end SpinLockGo
